import Mathlib

/-!
Verification of the job-pulse reconciliation pipeline core.

This file gives a shallow embedding, in Lean 4, of the core modules of the
job-pulse pipeline (app/core/ids.py, app/core/freshness.py,
app/core/keywords.py, app/core/normalize.py, app/storage/sqlite_store.py)
and proves properties of the embedded definitions.

Modelling conventions:
* Python `str` values are modelled as Lean `String` / `List Char`.
  Case folding (`str.lower`) is modelled on ASCII letters; `str.strip`
  whitespace is modelled by the ASCII whitespace characters
  (space, tab, newline, carriage return, vertical tab, form feed).
* `datetime` instants are modelled as `Int` epoch seconds in UTC.  The
  pipeline normalizes every datetime to UTC before comparing, so an
  instant is one integer; second granularity suffices for every property
  stated here.
* Fallible operations (the `ValueError` raised by `urlsplit` on a netloc
  with mismatched brackets, and the `ValueError` raised by the `Job`
  constructor) are modelled with `Option` / an explicit result type.
* External collaborators (the `dateutil` free-text date parser, the
  wall-clock `datetime.now`) are passed in as parameters.
-/

/-! ## Basic string utilities (List Char based) -/

abbrev Chars := List Char

/-- ASCII whitespace, the model of the character class stripped by
Python `str.strip()` (space, tab, newline, carriage return,
vertical tab, form feed). -/
def pyIsSpace (c : Char) : Bool :=
  c = ' ' || c = '\t' || c = '\n' || c = '\r' || c = Char.ofNat 11 || c = Char.ofNat 12

/-- Model of Python `str.strip()`: drop leading and trailing whitespace. -/
def pyStrip (l : Chars) : Chars :=
  ((l.dropWhile pyIsSpace).reverse.dropWhile pyIsSpace).reverse

/-- Model of Python `str.rstrip('/')`: drop trailing slashes. -/
def rstripSlash (l : Chars) : Chars :=
  (l.reverse.dropWhile (· = '/')).reverse

/-- ASCII lower-casing of one character, the model of `str.lower`. -/
def asciiLowerChar (c : Char) : Char :=
  if 'A' ≤ c ∧ c ≤ 'Z' then Char.ofNat (c.toNat + 32) else c

/-- ASCII lower-casing of a string, the model of `str.lower`. -/
def asciiLower (l : Chars) : Chars := l.map asciiLowerChar

/-- Split a list at the first occurrence of the separator `sep`
(Python `s.split(sep, 1)` when `sep` occurs; `none` when it does not,
which also serves as the model of the `sep in s` test). -/
def splitOnce (sep : Chars) (l : Chars) : Option (Chars × Chars) :=
  match l with
  | [] => if sep = [] then some ([], []) else none
  | c :: rest =>
    if sep.isPrefixOf l then some ([], l.drop sep.length)
    else match splitOnce sep rest with
      | some (a, b) => some (c :: a, b)
      | none => none

/-- Model of the Python substring test `sep in s`. -/
def hasSubstr (sep : Chars) (l : Chars) : Bool :=
  (splitOnce sep l).isSome

/-- String wrappers. -/
def pyStripS (s : String) : String := String.mk (pyStrip s.data)

def asciiLowerS (s : String) : String := String.mk (asciiLower s.data)

def hasSubstrS (sep s : String) : Bool := hasSubstr sep.data s.data

/-! ## The canonical Job record (app/core/models.py)

`Job` is a dataclass whose `__post_init__` raises `ValueError` when
`job_id`, `source`, `title` or `company` is falsy; that constructor
validation is modelled by `jobNew` below. -/

structure Job where
  job_id : String
  source : String
  title : String
  company : String
  location : Option String := none
  remote : Bool := false
  url : Option String := none
  description : Option String := none
  posted_at : Option Int := none
  fetched_at : Option Int := none
  tags : List String := []
  raw : Option String := none
deriving Repr, DecidableEq

/-- The `Job` constructor together with its `__post_init__` validation:
`none` models the `ValueError` raised on a falsy required field. -/
def jobNew (job_id source title company : String) (location : Option String)
    (remote : Bool) (url : Option String) (description : Option String)
    (posted_at : Option Int) (fetched_at : Option Int) (tags : List String)
    (raw : Option String) : Option Job :=
  if job_id = "" then none
  else if source = "" then none
  else if title = "" then none
  else if company = "" then none
  else some ⟨job_id, source, title, company, location, remote, url, description,
    posted_at, fetched_at, tags, raw⟩

/-! ## De-duplication (app/core/ids.py, `deduplicate_jobs`)

The source walks the list once with a `seen` set of ids, appending each
job whose id has not been seen.  The set is modelled as a list of ids
with membership. -/

def dedupGo (seen : List String) : List Job → List Job
  | [] => []
  | j :: rest =>
    if j.job_id ∈ seen then dedupGo seen rest
    else j :: dedupGo (j.job_id :: seen) rest

/-- `deduplicate_jobs`: keep the first occurrence of each `job_id`. -/
def deduplicate_jobs (jobs : List Job) : List Job :=
  dedupGo [] jobs

/-! ## Freshness filter (app/core/freshness.py)

`is_fresh(posted_at, now_utc, max_age_hours)` converts both datetimes to
UTC (instants are already UTC integers in the model) and compares against
`now_utc - timedelta(hours=max_age_hours)`.  The naive-datetime handling
(treat as UTC, log a warning) is the identity on instants in this model. -/

def is_fresh (posted_at : Int) (now_utc : Int) (max_age_hours : Int) : Bool :=
  posted_at ≥ now_utc - 3600 * max_age_hours

/-- `filter_fresh(jobs, max_age_hours)`: jobs without `posted_at` are
skipped; the rest are kept iff fresh.  `now_utc = datetime.now(timezone.utc)`
is passed as a parameter. -/
def filter_fresh (now_utc : Int) (jobs : List Job) (max_age_hours : Int) : List Job :=
  jobs.filter fun j =>
    match j.posted_at with
    | none => false
    | some p => is_fresh p now_utc max_age_hours

/-! ## Scoring and sorting (app/core/keywords.py) -/

/-- `score_job`: +3 for non-empty tags, +2 for remote, +1 when both
timestamps are present and `fetched_at - posted_at < timedelta(hours=6)`
(timezone normalization is the identity on instants in this model). -/
def score_job (j : Job) : Nat :=
  (if j.tags ≠ [] then 3 else 0) +
  (if j.remote then 2 else 0) +
  (match j.posted_at, j.fetched_at with
   | some p, some f => if f - p < 6 * 3600 then 1 else 0
   | _, _ => 0)

/-- The sentinel used by `sort_jobs` for jobs without `posted_at`:
`datetime.min.replace(tzinfo=timezone.utc).timestamp() = -62135596800.0`. -/
def minTimestamp : Int := -62135596800

/-- The `posted_at` epoch-seconds sort key of `get_sort_key`. -/
def postedKey (j : Job) : Int := j.posted_at.getD minTimestamp

/-- `get_sort_key(job) = (-score, -posted_timestamp)`. -/
def sortKey (j : Job) : Int × Int := (-(score_job j : Int), -(postedKey j))

/-- The comparison used to model Python `sorted` on tuple keys
(lexicographic order on the key pair). -/
def jobLE (a b : Job) : Bool :=
  decide ((sortKey a).1 < (sortKey b).1 ∨
    ((sortKey a).1 = (sortKey b).1 ∧ (sortKey a).2 ≤ (sortKey b).2))

/-- `sort_jobs`: Python's `sorted` is a stable merge sort; the model
uses `List.mergeSort` with the same key. -/
def sort_jobs (jobs : List Job) : List Job :=
  if jobs = [] then [] else jobs.mergeSort jobLE

/-! ## Persistence (app/storage/sqlite_store.py)

The jobs table is modelled as an association list keyed by `job_id`.
The stored `fetched_at` TEXT column is modelled by `FetchCol`:
`missing` for a falsy column value, `unparsable` for text that
`datetime.fromisoformat` rejects (or that is not comparable with the
incoming aware datetime), `time t` for a parsed instant.  `upsert_jobs`
always writes `time` values; the other states can only pre-exist. -/

inductive FetchCol where
  | missing : FetchCol
  | unparsable : FetchCol
  | time : Int → FetchCol
deriving Repr, DecidableEq

/-- One row of the `jobs` table (the columns created by `init_db`;
`description` is not a column).  `tags` and `raw` are serialized JSON
text blobs, modelled structurally. -/
structure Row where
  source : String
  title : String
  company : String
  location : Option String
  remote : Bool
  url : Option String
  posted_at : Option Int
  fetched_at : FetchCol
  tags : Option (List String)
  raw : Option String
deriving Repr, DecidableEq

abbrev DB := List (String × Row)

/-- `SELECT fetched_at FROM jobs WHERE job_id = ?` (whole-row model). -/
def findRow (db : DB) (id : String) : Option Row :=
  (db.find? fun kv => kv.1 = id).map (·.2)

/-- Replace the row stored under `id`. -/
def updateRow (db : DB) (id : String) (r : Row) : DB :=
  db.map fun kv => if kv.1 = id then (id, r) else kv

/-- The row serialized from an incoming job: `posted_at_str`,
`fetched_at_str` (falling back to `datetime.now(timezone.utc)` when the
job has no `fetched_at`), `tags_json` (`None` when `tags` is falsy),
`raw_json`. -/
def rowOfJob (j : Job) (now : Int) : Row :=
  ⟨j.source, j.title, j.company, j.location, j.remote, j.url,
   j.posted_at, .time (j.fetched_at.getD now),
   (if j.tags = [] then none else some j.tags), j.raw⟩

/-- One iteration of the `for job in jobs` loop of `upsert_jobs`:
insert when the id is new; otherwise update only when the stored
`fetched_at` is falsy/unparsable or strictly older than the incoming
one; the `ON CONFLICT ... DO UPDATE` sets every column from the
incoming row except `posted_at = COALESCE(excluded.posted_at,
jobs.posted_at)`. -/
def upsertStep (now : Int) (st : DB × Nat × Nat) (j : Job) : DB × Nat × Nat :=
  let db := st.1
  let inserted := st.2.1
  let updated := st.2.2
  let incoming := rowOfJob j now
  match findRow db j.job_id with
  | none => (db ++ [(j.job_id, incoming)], inserted + 1, updated)
  | some existing =>
    let su : Bool :=
      match existing.fetched_at with
      | .time t => j.fetched_at.getD now > t
      | _ => true
    if su then
      (updateRow db j.job_id
        { incoming with posted_at := j.posted_at <|> existing.posted_at },
       inserted, updated + 1)
    else (db, inserted, updated)

/-- `upsert_jobs(sqlite_path, jobs) -> (inserted, updated)`, with the
database state made explicit. -/
def upsert_jobs (db : DB) (jobs : List Job) (now : Int) : DB × Nat × Nat :=
  jobs.foldl (upsertStep now) (db, 0, 0)

/-! ## UTF-8 encoding and decoding

`str.encode('utf-8')` / `bytes.decode('utf-8', errors='replace')`,
used by percent-encoding (`urllib.parse.quote/unquote`) and by the
SHA-256 message encoding of `make_job_id`. -/

def utf8EncodeChar (c : Char) : List Nat :=
  let n := c.toNat
  if n < 128 then [n]
  else if n < 2048 then [192 + n / 64, 128 + n % 64]
  else if n < 65536 then [224 + n / 4096, 128 + n / 64 % 64, 128 + n % 64]
  else [240 + n / 262144, 128 + n / 4096 % 64, 128 + n / 64 % 64, 128 + n % 64]

def utf8Encode (l : Chars) : List Nat := l.flatMap utf8EncodeChar

/-- U+FFFD, the replacement character used by `errors='replace'`. -/
def replChar : Char := Char.ofNat 65533

def contByte (b : Nat) : Bool := 128 ≤ b ∧ b ≤ 191

/-- UTF-8 decoding with replacement of invalid sequences; the fuel is
an upper bound on the number of bytes and only makes the recursion
structural. -/
def utf8DecF : Nat → List Nat → Chars
  | 0, _ => []
  | _ + 1, [] => []
  | fuel + 1, b :: rest =>
    if b < 128 then Char.ofNat b :: utf8DecF fuel rest
    else if 194 ≤ b ∧ b ≤ 223 then
      match rest with
      | b2 :: r2 =>
        if contByte b2 then Char.ofNat ((b - 192) * 64 + (b2 - 128)) :: utf8DecF fuel r2
        else replChar :: utf8DecF fuel rest
      | [] => [replChar]
    else if 224 ≤ b ∧ b ≤ 239 then
      match rest with
      | b2 :: b3 :: r3 =>
        if contByte b2 ∧ contByte b3 ∧ (b = 224 → 160 ≤ b2) ∧ (b = 237 → b2 ≤ 159) then
          Char.ofNat ((b - 224) * 4096 + (b2 - 128) * 64 + (b3 - 128)) :: utf8DecF fuel r3
        else replChar :: utf8DecF fuel rest
      | _ => replChar :: utf8DecF fuel rest
    else if 240 ≤ b ∧ b ≤ 244 then
      match rest with
      | b2 :: b3 :: b4 :: r4 =>
        if contByte b2 ∧ contByte b3 ∧ contByte b4 ∧ (b = 240 → 144 ≤ b2) ∧ (b = 244 → b2 ≤ 143) then
          Char.ofNat ((b - 240) * 262144 + (b2 - 128) * 4096 + (b3 - 128) * 64 + (b4 - 128))
            :: utf8DecF fuel r4
        else replChar :: utf8DecF fuel rest
      | _ => replChar :: utf8DecF fuel rest
    else replChar :: utf8DecF fuel rest

def utf8Dec (l : List Nat) : Chars := utf8DecF l.length l

/-! ## Percent-encoding (urllib.parse quote/unquote) -/

/-- Hex value of an ASCII hex-digit byte (the `_hextobyte` table). -/
def hexDigitVal (b : Nat) : Option Nat :=
  if 48 ≤ b ∧ b ≤ 57 then some (b - 48)
  else if 65 ≤ b ∧ b ≤ 70 then some (b - 55)
  else if 97 ≤ b ∧ b ≤ 102 then some (b - 87)
  else none

/-- `unquote_to_bytes`: each `%` followed by two hex digits becomes the
corresponding byte; any other `%` stays literal.  The fuel is an upper
bound on the number of bytes and only makes the recursion
structural. -/
def pctDecodeBytesF : Nat → List Nat → List Nat
  | 0, _ => []
  | _ + 1, [] => []
  | fuel + 1, b :: rest =>
    if b = 37 then
      match rest with
      | h1 :: h2 :: r2 =>
        match hexDigitVal h1, hexDigitVal h2 with
        | some x, some y => (16 * x + y) :: pctDecodeBytesF fuel r2
        | _, _ => 37 :: pctDecodeBytesF fuel rest
      | _ => 37 :: pctDecodeBytesF fuel rest
    else b :: pctDecodeBytesF fuel rest

def pctDecodeBytes (l : List Nat) : List Nat := pctDecodeBytesF l.length l

/-- `unquote(s, encoding='utf-8', errors='replace')`. -/
def pyUnquote (l : Chars) : Chars :=
  utf8Dec (pctDecodeBytes (utf8Encode l))

/-- `unquote_plus`: '+' becomes space, then `unquote`. -/
def unquotePlus (l : Chars) : Chars :=
  pyUnquote (l.map fun c => if c = '+' then ' ' else c)

/-- The "always safe" bytes of `urllib.parse.quote`
(ASCII letters, digits, `_`, `.`, `-`, `~`). -/
def quoteSafeByte (b : Nat) : Bool :=
  (48 ≤ b ∧ b ≤ 57) || (65 ≤ b ∧ b ≤ 90) || (97 ≤ b ∧ b ≤ 122) ||
  b = 95 || b = 46 || b = 45 || b = 126

def upHexChar (n : Nat) : Char :=
  if n < 10 then Char.ofNat (48 + n) else Char.ofNat (55 + n)

/-- One byte of `quote_plus(s, safe='')` output: safe bytes stay
literal, a space becomes '+', everything else becomes `%XX` with
uppercase hex. -/
def quotePlusByte (b : Nat) : Chars :=
  if quoteSafeByte b then [Char.ofNat b]
  else if b = 32 then ['+']
  else ['%', upHexChar (b / 16), upHexChar (b % 16)]

/-- `quote_plus(s, safe='')` as used by `urlencode`. -/
def quotePlus (l : Chars) : Chars := (utf8Encode l).flatMap quotePlusByte

/-! ## Query-string parsing and encoding (parse_qs / urlencode) -/

/-- Python `s.split(sep)` for a one-character separator. -/
def pySplitChar (sep : Char) : Chars → List Chars
  | [] => [[]]
  | c :: rest =>
    if c = sep then [] :: pySplitChar sep rest
    else match pySplitChar sep rest with
      | [] => [[c]]
      | a :: bs => (c :: a) :: bs

/-- `parse_qsl(qs, keep_blank_values=False)` with the default `&`
separator: empty fields are skipped, fields without `=` are skipped,
fields with an empty value are skipped, names and values are
`unquote_plus`-decoded. -/
def qslStep (f : Chars) (acc : List (Chars × Chars)) : List (Chars × Chars) :=
  if f = [] then acc
  else match splitOnce ['='] f with
    | none => acc
    | some (n, v) => if v = [] then acc else (unquotePlus n, unquotePlus v) :: acc

def parseQsl (qs : Chars) : List (Chars × Chars) :=
  (pySplitChar '&' qs).foldr qslStep []

/-- `dict.setdefault(name, []).append(value)` over an insertion-ordered
association list. -/
def groupInsert (d : List (Chars × List Chars)) (k : Chars) (v : Chars) :
    List (Chars × List Chars) :=
  match d with
  | [] => [(k, [v])]
  | (k0, vs) :: rest =>
    if k0 = k then (k0, vs ++ [v]) :: rest else (k0, vs) :: groupInsert rest k v

/-- `parse_qs(qs, keep_blank_values=False)`. -/
def parse_qs (qs : Chars) : List (Chars × List Chars) :=
  (parseQsl qs).foldl (fun d kv => groupInsert d kv.1 kv.2) []

/-- Join with a one-character separator (`'&'.join`). -/
def joinChar (sep : Char) : List Chars → Chars
  | [] => []
  | [a] => a
  | a :: b :: rest => a ++ sep :: joinChar sep (b :: rest)

/-- `urlencode(d, doseq=True)` for a dict of string lists: one
`quote_plus(k)=quote_plus(v)` field per value, joined with `&`. -/
def urlencodeSeq (d : List (Chars × List Chars)) : Chars :=
  joinChar '&' (d.flatMap fun kv => kv.2.map fun v => quotePlus kv.1 ++ '=' :: quotePlus v)

/-! ## urlsplit / urlparse / urlunsplit / urlunparse -/

structure SplitResult where
  scheme : Chars
  netloc : Chars
  path : Chars
  query : Chars
  fragment : Chars
deriving Repr, DecidableEq

structure ParseResult where
  scheme : Chars
  netloc : Chars
  path : Chars
  params : Chars
  query : Chars
  fragment : Chars
deriving Repr, DecidableEq

/-- `scheme_chars`: ASCII letters, digits, `+`, `-`, `.`. -/
def schemeChar (c : Char) : Bool := c.isAlpha || c.isDigit || c = '+' || c = '-' || c = '.'

/-- The validity test applied to the text before the first `:`
(`i > 0 and url[0].isascii() and url[0].isalpha()` plus the
`scheme_chars` loop). -/
def schemeOk (pre : Chars) : Bool :=
  pre ≠ [] && (pre.head?.elim false Char.isAlpha) && pre.all schemeChar

/-- A netloc runs to the first of `/`, `?`, `#` (`_splitnetloc`). -/
def netlocStop (c : Char) : Bool := c = '/' || c = '?' || c = '#'

/-- The scheme split of `urlsplit`: text before the first `:` becomes
the (lower-cased) scheme when it passes the `scheme_chars` test. -/
def splitScheme (url1 : Chars) : Chars × Chars :=
  match splitOnce [':'] url1 with
  | some (pre, post) => if schemeOk pre then (asciiLower pre, post) else ([], url1)
  | none => ([], url1)

/-- `_splitnetloc`, applied when the remainder starts with `//`. -/
def splitNetloc (rest0 : Chars) : Chars × Chars :=
  if rest0.take 2 = ['/', '/'] then
    ((rest0.drop 2).takeWhile (fun c => !netlocStop c),
     (rest0.drop 2).dropWhile (fun c => !netlocStop c))
  else ([], rest0)

/-- Fragment split at the first `#` (`allow_fragments=True`). -/
def splitFragment (rest1 : Chars) : Chars × Chars :=
  match splitOnce ['#'] rest1 with
  | some (pre, post) => (pre, post)
  | none => (rest1, [])

/-- Query split at the first `?`. -/
def splitQuery (l : Chars) : Chars × Chars :=
  match splitOnce ['?'] l with
  | some (pre, post) => (pre, post)
  | none => (l, [])

/-- `urlsplit(url)` with `allow_fragments=True`.  Tab, carriage return
and newline are removed first (`_UNSAFE_URL_BYTES_TO_REMOVE`); `none`
models the `ValueError` raised when the netloc contains `[` without `]`
or vice versa.  (The extra bracketed-host validation of newer CPython
is not modelled; bracketed hosts behave as in CPython 3.10.) -/
def urlsplitM (url0 : Chars) : Option SplitResult :=
  let url1 := url0.filter fun c => !(c = '\t' || c = '\r' || c = '\n')
  let sr := splitScheme url1
  let nr := splitNetloc sr.2
  if ('[' ∈ nr.1 ∧ ']' ∉ nr.1) ∨ (']' ∈ nr.1 ∧ '[' ∉ nr.1) then none
  else
    let fs := splitFragment nr.2
    let qs := splitQuery fs.1
    some ⟨sr.1, nr.1, qs.1, qs.2, fs.2⟩

/-- The last `/`-separated segment of `l` (empty when `l` ends in `/`). -/
def lastSeg (l : Chars) : Chars := (l.reverse.takeWhile (· ≠ '/')).reverse

/-- Everything up to and including the last `/` of `l`. -/
def beforeLastSeg (l : Chars) : Chars := (l.reverse.dropWhile (· ≠ '/')).reverse

/-- `_splitparams`: split at the first `;` of the last path segment
(or of the whole string when there is no `/`); called only when the
string contains a `;`. -/
def splitparams (l : Chars) : Chars × Chars :=
  if '/' ∈ l then
    match splitOnce [';'] (lastSeg l) with
    | some (pre, post) => (beforeLastSeg l ++ pre, post)
    | none => (l, [])
  else
    match splitOnce [';'] l with
    | some (pre, post) => (pre, post)
    | none => (l, [])

/-- `urlparse`: `urlsplit` plus params splitting when the path
contains a `;`. -/
def urlparseM (url : Chars) : Option ParseResult :=
  match urlsplitM url with
  | none => none
  | some s =>
    if ';' ∈ s.path then
      let pp := splitparams s.path
      some ⟨s.scheme, s.netloc, pp.1, pp.2, s.query, s.fragment⟩
    else some ⟨s.scheme, s.netloc, s.path, [], s.query, s.fragment⟩

/-- `urlunsplit((scheme, netloc, url, query, fragment))`. -/
def urlunsplit (scheme netloc url query fragment : Chars) : Chars :=
  let u1 :=
    if netloc ≠ [] ∨ (url ≠ [] ∧ url.take 2 = ['/', '/']) then
      ('/' :: '/' :: netloc) ++ (if url ≠ [] ∧ url.head? ≠ some '/' then '/' :: url else url)
    else url
  let u2 := if scheme ≠ [] then scheme ++ ':' :: u1 else u1
  let u3 := if query ≠ [] then u2 ++ '?' :: query else u2
  if fragment ≠ [] then u3 ++ '#' :: fragment else u3

/-- `urlunparse`: re-attach params to the path, then `urlunsplit`. -/
def urlunparse (scheme netloc url params query fragment : Chars) : Chars :=
  urlunsplit scheme netloc (if params ≠ [] then url ++ ';' :: params else url) query fragment

/-! ## URL canonicalization (app/core/ids.py, `canonicalize_url`) -/

/-- The exact-match tracking-parameter set of `canonicalize_url`. -/
def trackingParams : List Chars :=
  ["utm_source", "utm_medium", "utm_campaign", "utm_term", "utm_content",
   "ref", "src", "source", "referrer", "referer",
   "fbclid", "gclid", "_ga", "_gid", "_gac",
   "mc_cid", "mc_eid", "mkt_tok",
   "igshid", "twclid"].map String.data

/-- `k.lower() in tracking_params or k.lower().startswith('utm_')`. -/
def isTracking (k : Chars) : Bool :=
  (asciiLower k) ∈ trackingParams || ("utm_".data.isPrefixOf (asciiLower k))

/-- `canonicalize_url`: lower-case scheme and host, strip trailing
slashes from the path, drop the fragment, remove tracking query
parameters, re-encode the remaining query.  `none` models a
`ValueError` escaping from `urlparse`. -/
def canonicalize_url (url : String) : Option String :=
  if url.data = [] ∨ pyStrip url.data = [] then some url
  else
    match urlparseM (pyStrip url.data) with
    | none => none
    | some p =>
      let netloc := asciiLower p.netloc
      let path := rstripSlash p.path
      let filtered := (parse_qs p.query).filter fun kv => ¬ isTracking kv.1
      let query := if filtered ≠ [] then urlencodeSeq filtered else []
      some (String.mk (urlunparse (asciiLower p.scheme) netloc path p.params query []))

/-! ## SHA-256 (hashlib.sha256, used by make_job_id)

Words are `Nat` values kept below `2^32` by explicit reduction. -/

def M32 : Nat := 4294967296

def add32 (a b : Nat) : Nat := (a + b) % M32

def rotr32 (n x : Nat) : Nat := (x >>> n) ||| ((x <<< (32 - n)) % M32)

def shaCh (e f g : Nat) : Nat := (e &&& f) ^^^ ((4294967295 ^^^ e) &&& g)

def shaMaj (a b c : Nat) : Nat := (a &&& b) ^^^ (a &&& c) ^^^ (b &&& c)

def bigSigma0 (x : Nat) : Nat := (rotr32 2 x) ^^^ (rotr32 13 x) ^^^ (rotr32 22 x)

def bigSigma1 (x : Nat) : Nat := (rotr32 6 x) ^^^ (rotr32 11 x) ^^^ (rotr32 25 x)

def smallSigma0 (x : Nat) : Nat := (rotr32 7 x) ^^^ (rotr32 18 x) ^^^ (x >>> 3)

def smallSigma1 (x : Nat) : Nat := (rotr32 17 x) ^^^ (rotr32 19 x) ^^^ (x >>> 10)

def sha256K : List Nat :=
  [1116352408, 1899447441, 3049323471, 3921009573, 961987163, 1508970993, 2453635748, 2870763221,
   3624381080, 310598401, 607225278, 1426881987, 1925078388, 2162078206, 2614888103, 3248222580,
   3835390401, 4022224774, 264347078, 604807628, 770255983, 1249150122, 1555081692, 1996064986,
   2554220882, 2821834349, 2952996808, 3210313671, 3336571891, 3584528711, 113926993, 338241895,
   666307205, 773529912, 1294757372, 1396182291, 1695183700, 1986661051, 2177026350, 2456956037,
   2730485921, 2820302411, 3259730800, 3345764771, 3516065817, 3600352804, 4094571909, 275423344,
   430227734, 506948616, 659060556, 883997877, 958139571, 1322822218, 1537002063, 1747873779,
   1955562222, 2024104815, 2227730452, 2361852424, 2428436474, 2756734187, 3204031479, 3329325298]

structure Hash8 where
  a : Nat
  b : Nat
  c : Nat
  d : Nat
  e : Nat
  f : Nat
  g : Nat
  h : Nat
deriving Repr, DecidableEq

def sha256Init : Hash8 :=
  ⟨1779033703, 3144134277, 1013904242, 2773480762, 1359893119, 2600822924, 528734635, 1541459225⟩

/-- Big-endian 8-byte encoding of the bit length. -/
def lenBytes8 (n : Nat) : List Nat :=
  [n / 72057594037927936 % 256, n / 281474976710656 % 256, n / 1099511627776 % 256,
   n / 4294967296 % 256, n / 16777216 % 256, n / 65536 % 256, n / 256 % 256, n % 256]

/-- SHA-256 padding: `0x80`, zeros to 56 mod 64, 8 length bytes. -/
def sha256Pad (msg : List Nat) : List Nat :=
  msg ++ 128 :: List.replicate ((119 - msg.length % 64) % 64) 0 ++ lenBytes8 (8 * msg.length)

/-- 64-byte blocks; the fuel is an upper bound on the number of bytes
and only makes the recursion structural. -/
def chunks64F : Nat → List Nat → List (List Nat)
  | 0, _ => []
  | _ + 1, [] => []
  | fuel + 1, b :: l => ((b :: l).take 64) :: chunks64F fuel ((b :: l).drop 64)

def chunks64 (l : List Nat) : List (List Nat) := chunks64F l.length l

/-- Big-endian 4-byte words from a byte list. -/
def bytesToWords : List Nat → List Nat
  | b0 :: b1 :: b2 :: b3 :: rest => (((b0 * 256 + b1) * 256 + b2) * 256 + b3) :: bytesToWords rest
  | _ => []

/-- One step of the 48 message-schedule extensions. -/
def schedStep (w : List Nat) : List Nat :=
  let n := w.length
  w ++ [add32 (add32 (smallSigma1 (w.getD (n - 2) 0)) (w.getD (n - 7) 0))
          (add32 (smallSigma0 (w.getD (n - 15) 0)) (w.getD (n - 16) 0))]

def schedule (w0 : List Nat) : List Nat := Nat.iterate schedStep 48 w0

/-- One of the 64 compression rounds; the pair is `(kᵢ, wᵢ)`. -/
def compressWord (st : Hash8) (kw : Nat × Nat) : Hash8 :=
  let t1 := add32 (add32 (add32 st.h (bigSigma1 st.e)) (add32 (shaCh st.e st.f st.g) kw.1)) kw.2
  let t2 := add32 (bigSigma0 st.a) (shaMaj st.a st.b st.c)
  ⟨add32 t1 t2, st.a, st.b, st.c, add32 st.d t1, st.e, st.f, st.g⟩

def processBlock (st : Hash8) (block : List Nat) : Hash8 :=
  let w := schedule (bytesToWords block)
  let fin := (sha256K.zip w).foldl compressWord st
  ⟨add32 st.a fin.a, add32 st.b fin.b, add32 st.c fin.c, add32 st.d fin.d,
   add32 st.e fin.e, add32 st.f fin.f, add32 st.g fin.g, add32 st.h fin.h⟩

/-- Lowercase hex digit, as rendered by `hexdigest()`. -/
def hexNibble (n : Nat) : Char :=
  if n < 10 then Char.ofNat (48 + n) else Char.ofNat (87 + n)

/-- Eight lowercase hex digits of one 32-bit word. -/
def hex8 (w : Nat) : Chars :=
  [hexNibble (w / 268435456 % 16), hexNibble (w / 16777216 % 16), hexNibble (w / 1048576 % 16),
   hexNibble (w / 65536 % 16), hexNibble (w / 4096 % 16), hexNibble (w / 256 % 16),
   hexNibble (w / 16 % 16), hexNibble (w % 16)]

/-- `hashlib.sha256(msg).hexdigest()` over a byte list. -/
def sha256Hex (msg : List Nat) : String :=
  let st := (chunks64 (sha256Pad msg)).foldl processBlock sha256Init
  String.mk (hex8 st.a ++ hex8 st.b ++ hex8 st.c ++ hex8 st.d ++
             hex8 st.e ++ hex8 st.f ++ hex8 st.g ++ hex8 st.h)

/-! ## Job id generation (app/core/ids.py, `make_job_id`) -/

/-- `make_job_id(company, title, url)`: lower-case and strip the
company and title (falsy values become the empty string), canonicalize
the url when truthy, join with `|`, SHA-256, hex digest.  `none`
models a `ValueError` escaping from `canonicalize_url`. -/
def make_job_id (company title url : String) : Option String :=
  let company_norm := if company = "" then "" else asciiLowerS (pyStripS company)
  let title_norm := if title = "" then "" else asciiLowerS (pyStripS title)
  match (if url = "" then some "" else canonicalize_url url) with
  | none => none
  | some url_norm =>
    some (sha256Hex (utf8Encode
      (company_norm ++ "|" ++ title_norm ++ "|" ++ url_norm).data))

/-! ## Normalization (app/core/normalize.py)

A raw connector entry is a loosely-typed dict; the fields read by the
normalizers are modelled as optional typed fields (`none` = key
absent).  The `dateutil` free-text date parser is the parameter
`pd : String → Option Int` (`none` = parse error); `published_parsed`
carries the instant its `time.struct_time` denotes; `datetime.now` is
the parameter `now`.  The opaque raw payload attached to a `Job`
(`entry.get("raw_entry") or entry`, `raw.get("raw") or raw`) is
modelled by the single opaque field `raw_entry`. -/

structure RawEntry where
  source : Option String := none
  title : Option String := none
  url : Option String := none
  company : Option String := none
  location : Option String := none
  description : Option String := none
  published : Option String := none
  published_parsed : Option Int := none
  updated_at : Option String := none
  created_at : Option String := none
  createdAt : Option Int := none
  raw_entry : Option String := none
deriving Repr, DecidableEq

/-- The outcome of one normalizer call: `ok` a Job, `skip` models
`return None`, `error` models an exception escaping the normalizer
(caught by `normalize_all`). -/
inductive NormResult where
  | ok : Job → NormResult
  | skip : NormResult
  | error : NormResult
deriving Repr, DecidableEq

/-- The `job_words` vocabulary of `_extract_company_from_title`. -/
def jobWords : List Chars :=
  ["engineer", "developer", "manager", "analyst", "designer",
   "director", "lead", "senior", "junior", "intern", "specialist"].map String.data

def hasJobWord (part : Chars) : Bool :=
  jobWords.any fun w => hasSubstr w (asciiLower part)

/-- The separator loop of `_extract_company_from_title`: split at the
first occurrence of the separator, strip both sides, keep the side
without a job word when exactly one side has one, else (for `" at "`
only) default to the right-hand side, else try the next separator. -/
def extractCompanyGo (title : Chars) : List Chars → Option Chars
  | [] => none
  | sep :: seps =>
    match splitOnce sep title with
    | none => extractCompanyGo title seps
    | some (p1, p2) =>
      let part1 := pyStrip p1
      let part2 := pyStrip p2
      if hasJobWord part1 ∧ ¬ hasJobWord part2 then some part2
      else if hasJobWord part2 ∧ ¬ hasJobWord part1 then some part1
      else if sep = " at ".data then some part2
      else extractCompanyGo title seps

/-- `_extract_company_from_title`. -/
def extract_company_from_title (title : String) : Option String :=
  if title = "" then none
  else (extractCompanyGo title.data [" at ".data, " - ".data, " | ".data]).map String.mk

/-- The groups found by `re.findall(r'\(([^)]+)\)', title)`, scanned
left to right: `pending = some acc` means we are inside a candidate
group whose content so far is `acc` reversed. -/
def parenGroupsGo (pending : Option Chars) : Chars → List Chars
  | [] => []
  | c :: rest =>
    match pending with
    | none =>
      if c = '(' then parenGroupsGo (some []) rest else parenGroupsGo none rest
    | some acc =>
      if c = ')' then
        if acc = [] then parenGroupsGo none rest
        else acc.reverse :: parenGroupsGo none rest
      else parenGroupsGo (some (c :: acc)) rest

/-- The `location_indicators` vocabulary of
`_extract_location_from_title`. -/
def locationIndicators : List Chars :=
  ["remote", "hybrid", "ca", "ny", "tx", "fl", "city", "state",
   "san francisco", "new york", "los angeles", "chicago", "boston"].map String.data

/-- `_extract_location_from_title`: the first parenthesized group
containing a location indicator, stripped. -/
def extract_location_from_title (title : String) : Option String :=
  if title = "" then none
  else if '(' ∈ title.data ∧ ')' ∈ title.data then
    ((parenGroupsGo none title.data).find? fun m =>
        locationIndicators.any fun ind => hasSubstr ind (asciiLower m)).map
      fun m => String.mk (pyStrip m)
  else none

/-- `_is_remote(title, location)`. -/
def isRemote (title : String) (location : Option String) : Bool :=
  hasSubstr "remote".data (asciiLower title.data) ||
  (match location with
   | some l => hasSubstr "remote".data (asciiLower l.data)
   | none => false)

/-- `re.sub(r'<[^>]+>', '', s)`: drop `<...>` runs with non-empty
content; an unterminated `<...` and a bare `<>` stay literal. -/
def stripTagsGo (pending : Option Chars) : Chars → Chars
  | [] =>
    (match pending with
     | none => []
     | some acc => '<' :: acc.reverse)
  | c :: rest =>
    match pending with
    | none =>
      if c = '<' then stripTagsGo (some []) rest else c :: stripTagsGo none rest
    | some acc =>
      if c = '>' then
        if acc = [] then '<' :: '>' :: stripTagsGo none rest
        else stripTagsGo none rest
      else stripTagsGo (some (c :: acc)) rest

/-- `re.sub(r'\s+', ' ', s)`: collapse whitespace runs to one space. -/
def collapseWSF : Nat → Chars → Chars
  | 0, _ => []
  | _ + 1, [] => []
  | fuel + 1, c :: rest =>
    if pyIsSpace c then ' ' :: collapseWSF fuel (rest.dropWhile pyIsSpace)
    else c :: collapseWSF fuel rest

def collapseWS (l : Chars) : Chars := collapseWSF l.length l

/-- The description processing of `normalize_rss_entry`: keep a falsy
value as is; else strip, HTML-strip, collapse whitespace, strip, and
turn an empty result into `None`. -/
def processDescriptionRss (d : Option String) : Option String :=
  match d with
  | none => none
  | some s =>
    if s = "" then some ""
    else
      let st := pyStripS s
      if st = "" then none
      else
        let t := pyStripS (String.mk (collapseWS (stripTagsGo none st.data)))
        if t = "" then none else some t

/-- The description processing of `normalize_greenhouse` and
`normalize_lever`: keep a falsy value as is; else strip, turning an
empty result into `None`. -/
def processDescriptionSimple (d : Option String) : Option String :=
  match d with
  | none => none
  | some s =>
    if s = "" then some ""
    else if pyStripS s = "" then none else some (pyStripS s)

/-- `_parse_posted_at` (RSS): a truthy `published_parsed` wins, else a
truthy `published` string is given to the date parser, else `None`. -/
def parsePostedAtRss (pd : String → Option Int) (e : RawEntry) : Option Int :=
  match e.published_parsed with
  | some t => some t
  | none =>
    match e.published with
    | some s => if s = "" then none else pd s
    | none => none

/-- The `created_at` fallback of `_parse_greenhouse_posted_at`. -/
def ghFallback (pd : String → Option Int) (e : RawEntry) : Option Int :=
  match e.created_at with
  | some cs => if cs = "" then none else pd cs
  | none => none

/-- `_parse_greenhouse_posted_at`: prefer a parsable `updated_at`,
except that a parsable `created_at` more than one day older wins;
an unusable `updated_at` falls back to `created_at`. -/
def parsePostedAtGreenhouse (pd : String → Option Int) (e : RawEntry) : Option Int :=
  match e.updated_at with
  | none => ghFallback pd e
  | some us =>
    if us = "" then ghFallback pd e
    else
      match pd us with
      | none => ghFallback pd e
      | some ud =>
        match e.created_at with
        | none => some ud
        | some cs =>
          if cs = "" then some ud
          else
            match pd cs with
            | none => some ud
            | some cd => if cd < ud - 86400 then some cd else some ud

/-- `_parse_lever_posted_at`: a present `createdAt` milliseconds epoch
becomes an instant (seconds in the model). -/
def parsePostedAtLever (e : RawEntry) : Option Int :=
  match e.createdAt with
  | none => none
  | some ms => some (ms / 1000)

/-- The company resolution of `normalize_rss_entry`: a truthy
source-provided company is stripped; otherwise the title patterns are
tried; a falsy result becomes `"Unknown"`. -/
def rssCompany (e : RawEntry) : String :=
  let title := pyStripS (e.title.getD "")
  let company0 : String :=
    match e.company with
    | some c => if c ≠ "" then pyStripS c else (extract_company_from_title title).getD ""
    | none => (extract_company_from_title title).getD ""
  if company0 = "" then "Unknown" else company0

/-- The location resolution of `normalize_rss_entry`: a truthy
source-provided location is stripped (empty becoming `None`), a falsy
one falls back to title extraction. -/
def rssLocation (e : RawEntry) : Option String :=
  match e.location with
  | some l =>
    if l ≠ "" then (if pyStripS l = "" then none else some (pyStripS l))
    else extract_location_from_title (pyStripS (e.title.getD ""))
  | none => extract_location_from_title (pyStripS (e.title.getD ""))

/-- The location resolution of `normalize_greenhouse` and
`normalize_lever`: only a truthy value is stripped; there is no title
extraction. -/
def ghLocation (e : RawEntry) : Option String :=
  match e.location with
  | some l => if l ≠ "" then (if pyStripS l = "" then none else some (pyStripS l)) else some l
  | none => none

/-- `normalize_rss_entry`. -/
def normalize_rss_entry (pd : String → Option Int) (now : Int) (e : RawEntry) : NormResult :=
  let source := pyStripS (e.source.getD "")
  let title := pyStripS (e.title.getD "")
  let url := pyStripS (e.url.getD "")
  if source = "" then .skip
  else if title = "" then .skip
  else if url = "" then .skip
  else
    match make_job_id (rssCompany e) title url with
    | none => .error
    | some jid =>
      match jobNew jid source title (rssCompany e) (rssLocation e)
          (isRemote title (rssLocation e)) (some url) (processDescriptionRss e.description)
          (parsePostedAtRss pd e) (some now) [] e.raw_entry with
      | some j => .ok j
      | none => .skip

/-- The company resolution of `normalize_greenhouse` / `normalize_lever`:
the stripped source value, `"Unknown"` when falsy. -/
def ghCompany (e : RawEntry) : String :=
  if pyStripS (e.company.getD "") = "" then "Unknown" else pyStripS (e.company.getD "")

/-- `normalize_greenhouse`. -/
def normalize_greenhouse (pd : String → Option Int) (now : Int) (e : RawEntry) : NormResult :=
  let source := pyStripS (e.source.getD "")
  let title := pyStripS (e.title.getD "")
  let url := pyStripS (e.url.getD "")
  if source = "" then .skip
  else if title = "" then .skip
  else if url = "" then .skip
  else
    match make_job_id (ghCompany e) title url with
    | none => .error
    | some jid =>
      match jobNew jid source title (ghCompany e) (ghLocation e)
          (isRemote title (ghLocation e)) (some url) (processDescriptionSimple e.description)
          (parsePostedAtGreenhouse pd e) (some now) [] e.raw_entry with
      | some j => .ok j
      | none => .skip

/-- `normalize_lever`. -/
def normalize_lever (pd : String → Option Int) (now : Int) (e : RawEntry) : NormResult :=
  let source := pyStripS (e.source.getD "")
  let title := pyStripS (e.title.getD "")
  let url := pyStripS (e.url.getD "")
  if source = "" then .skip
  else if title = "" then .skip
  else if url = "" then .skip
  else
    match make_job_id (ghCompany e) title url with
    | none => .error
    | some jid =>
      match jobNew jid source title (ghCompany e) (ghLocation e)
          (isRemote title (ghLocation e)) (some url) (processDescriptionSimple e.description)
          (parsePostedAtLever e) (some now) [] e.raw_entry with
      | some j => .ok j
      | none => .skip

/-- The source-tag dispatch of `normalize_all`. -/
def normalizeEntry (pd : String → Option Int) (now : Int) (e : RawEntry) : NormResult :=
  let s := asciiLowerS (pyStripS (e.source.getD ""))
  if s = "greenhouse" then normalize_greenhouse pd now e
  else if s = "lever" then normalize_lever pd now e
  else normalize_rss_entry pd now e

/-- The job produced by one entry, if any (a skip and a caught
exception alike contribute nothing). -/
def normResultJob : NormResult → Option Job
  | .ok j => some j
  | .skip => none
  | .error => none

/-- `normalize_all`: route each entry, keep the Jobs, skip everything
else (including entries whose normalization raised). -/
def normalize_all (pd : String → Option Int) (now : Int) (raw_items : List RawEntry) : List Job :=
  raw_items.filterMap fun e => normResultJob (normalizeEntry pd now e)

/-! ## Spec-side formulations (for refinement comparison)

`claimVocab` is the job-title vocabulary exactly as the specification
lists it; `companySpec` restates, in specification style, the company
extraction rule actually implemented (used to characterize
`_extract_company_from_title`). -/

/-- The job-title vocabulary as listed by the specification (it omits
`developer`). -/
def claimVocab : List Chars :=
  ["engineer", "manager", "director", "designer", "analyst",
   "lead", "senior", "junior", "intern", "specialist"].map String.data

/-- One side of a split lexically resembles a job title (specification
wording), over a given vocabulary. -/
def sideHasVocab (vocab : List Chars) (part : Chars) : Bool :=
  vocab.any fun w => hasSubstr w (asciiLower part)

/-- "Exactly one side resembles a job title": the company is then the
other side. -/
def exactlyOneSide (p1 p2 : Chars) : Option Chars :=
  if hasJobWord p1 ∧ ¬ hasJobWord p2 then some p2
  else if hasJobWord p2 ∧ ¬ hasJobWord p1 then some p1
  else none

/-- The company-extraction rule as the amended specification states
it: try the separators in order; at the first occurrence of a present
separator, strip both sides and take the side opposite a job-title
word when exactly one side has one; for `" at "` alone, an
inconclusive test still takes the right-hand side; a separator that
yields nothing falls through; no separator yields `none`. -/
def companySpec (title : Chars) : Option Chars :=
  [" at ".data, " - ".data, " | ".data].findSome? fun sep =>
    match splitOnce sep title with
    | none => none
    | some (a, b) =>
      match exactlyOneSide (pyStrip a) (pyStrip b) with
      | some w => some w
      | none => if sep = " at ".data then some (pyStrip b) else none

/-- No whitespace characters (the hypothesis of the amended
idempotence claim). -/
def noWS (l : Chars) : Prop := ∀ c ∈ l, ¬ pyIsSpace c

/-- Proof-side description of the byte level image of one input byte
under `quote_plus` followed by the plus-to-space substitution and
UTF-8 re-encoding (used to analyse `unquote_plus ∘ quote_plus`). -/
def pctBlock (b : Nat) : List Nat :=
  if quoteSafeByte b then [b]
  else if b = 32 then [32]
  else [37, (upHexChar (b / 16)).toNat, (upHexChar (b % 16)).toNat]

/-! # Theorems

Helper lemmas come first; each claim is settled by one named theorem
(with a witness where the theorem has hypotheses). -/

/-! ## De-duplication lemmas -/

theorem dedupGo_sublist (seen : List String) (l : List Job) : List.Sublist (dedupGo seen l) l := by
  induction l generalizing seen with
  | nil => simp [dedupGo]
  | cons j rest ih =>
    simp only [dedupGo]
    by_cases h : j.job_id ∈ seen
    · simp only [if_pos h]
      exact (ih seen).cons j
    · simp only [if_neg h]
      exact (ih _).cons₂ j

theorem dedupGo_filter (i : String) : ∀ (seen : List String) (l : List Job),
    (dedupGo seen l).filter (fun j => decide (j.job_id = i)) =
      if i ∈ seen then [] else ((l.find? fun j => decide (j.job_id = i)).toList) := by
  intro seen l
  induction l generalizing seen with
  | nil => simp [dedupGo]
  | cons j rest ih =>
    by_cases hj : j.job_id ∈ seen
    · rw [dedupGo, if_pos hj, ih seen]
      by_cases hi : i ∈ seen
      · simp [hi]
      · have hne : ¬ j.job_id = i := fun h => hi (h ▸ hj)
        simp [hi, List.find?_cons, hne]
    · rw [dedupGo, if_neg hj]
      by_cases hji : j.job_id = i
      · subst hji
        have hi : j.job_id ∉ seen := hj
        rw [List.filter_cons_of_pos (by simp), ih (j.job_id :: seen),
          if_pos (List.mem_cons_self _ _)]
        simp [hi, List.find?_cons]
      · rw [List.filter_cons_of_neg (by simp [hji]), ih (j.job_id :: seen)]
        have : (i ∈ j.job_id :: seen) ↔ (i ∈ seen) := by
          constructor
          · intro h
            rcases List.mem_cons.mp h with h' | h'
            · exact absurd h'.symm hji
            · exact h'
          · exact fun h => List.mem_cons_of_mem _ h
        rw [if_congr this rfl rfl]
        by_cases hi : i ∈ seen
        · simp [hi]
        · simp [hi, List.find?_cons, hji]

theorem dedupGo_idem : ∀ (seen : List String) (l : List Job),
    dedupGo seen (dedupGo seen l) = dedupGo seen l := by
  intro seen l
  induction l generalizing seen with
  | nil => simp [dedupGo]
  | cons j rest ih =>
    by_cases h : j.job_id ∈ seen
    · rw [dedupGo, if_pos h, ih seen]
    · rw [dedupGo, if_neg h, dedupGo, if_neg h, ih (j.job_id :: seen)]

/-- C8: `deduplicate_jobs` is idempotent, preserves the input order
(its output is a sublist of the input), and for every id the output
keeps exactly the first input occurrence of that id. -/
theorem deduplicate_first_occurrence_idem :
    (∀ l : List Job, deduplicate_jobs (deduplicate_jobs l) = deduplicate_jobs l) ∧
    (∀ l : List Job, List.Sublist (deduplicate_jobs l) l) ∧
    (∀ (l : List Job) (i : String),
      (deduplicate_jobs l).filter (fun j => decide (j.job_id = i)) =
        ((l.find? fun j => decide (j.job_id = i)).toList)) := by
  refine ⟨fun l => dedupGo_idem [] l, fun l => dedupGo_sublist [] l, fun l i => ?_⟩
  simp only [deduplicate_jobs, dedupGo_filter]
  simp

/-! ## Freshness (C4) -/

/-- C4: `is_fresh` holds exactly on `posted_at ≥ now - max_age_hours`
with an inclusive boundary (exactly `max_age_hours` old is fresh, one
second older is not), and `filter_fresh` drops every job whose
`posted_at` is null, for every window size. -/
theorem fresh_boundary_inclusive_null_dropped :
    (∀ p now h : Int, is_fresh p now h = true ↔ p ≥ now - 3600 * h) ∧
    (∀ now h : Int, is_fresh (now - 3600 * h) now h = true) ∧
    (∀ now h : Int, is_fresh (now - 3600 * h - 1) now h = false) ∧
    (∀ (now h : Int) (jobs : List Job) (j : Job),
      j.posted_at = none → j ∉ filter_fresh now jobs h) := by
  refine ⟨?_, ?_, ?_, ?_⟩
  · intro p now h
    simp [is_fresh]
  · intro now h
    simp [is_fresh]
  · intro now h
    simp [is_fresh]
  · intro now h jobs j hnone hmem
    rw [filter_fresh] at hmem
    have := (List.mem_filter.mp hmem).2
    rw [hnone] at this
    exact absurd this (by simp)

/-- Witness for C4 at a concrete boundary instant and a concrete
null-`posted_at` job. -/
theorem fresh_boundary_witness :
    is_fresh (-86400) 0 24 = true ∧ is_fresh (-86401) 0 24 = false ∧
    (⟨"i", "s", "t", "c", none, false, none, none, none, none, [], none⟩ : Job) ∉
      filter_fresh 0 [⟨"i", "s", "t", "c", none, false, none, none, none, none, [], none⟩] 24 := by
  refine ⟨?_, ?_, ?_⟩
  · have := fresh_boundary_inclusive_null_dropped.2.1 0 24
    simpa using this
  · have := fresh_boundary_inclusive_null_dropped.2.2.1 0 24
    simpa using this
  · exact fresh_boundary_inclusive_null_dropped.2.2.2 0 24 _ _ rfl

/-! ## Scoring (C6) -/

/-- C6: the score is 3 (non-empty tags) + 2 (remote) + 1 (posted less
than six hours before fetch, strictly): a tagged remote job posted 3h
before fetch scores 6, the same without remote scores 4, an untagged
non-remote job posted 24h before fetch scores 0, and the +1 point is
earned at a 6h−1s gap but not at exactly 6h. -/
theorem score_sum_rule :
    (∀ (j : Job) (p f : Int), j.tags ≠ [] → j.remote = true → j.posted_at = some p →
      j.fetched_at = some f → f - p = 10800 → score_job j = 6) ∧
    (∀ (j : Job) (p f : Int), j.tags ≠ [] → j.remote = false → j.posted_at = some p →
      j.fetched_at = some f → f - p = 10800 → score_job j = 4) ∧
    (∀ (j : Job) (p f : Int), j.tags = [] → j.remote = false → j.posted_at = some p →
      j.fetched_at = some f → f - p = 86400 → score_job j = 0) ∧
    (∀ (j : Job) (p f : Int), j.posted_at = some p → j.fetched_at = some f →
      (f - p = 21600 →
        score_job j = (if j.tags ≠ [] then 3 else 0) + (if j.remote then 2 else 0)) ∧
      (f - p = 21599 →
        score_job j = (if j.tags ≠ [] then 3 else 0) + (if j.remote then 2 else 0) + 1)) := by
  refine ⟨?_, ?_, ?_, ?_⟩
  · intro j p f ht hr hp hf hd
    rw [score_job, hp, hf, hr]
    simp only [if_pos ht, hd]
    norm_num
  · intro j p f ht hr hp hf hd
    rw [score_job, hp, hf, hr]
    simp only [if_pos ht, hd]
    norm_num
  · intro j p f ht hr hp hf hd
    rw [score_job, hp, hf, hr]
    simp [ht, hd]
  · intro j p f hp hf
    constructor
    · intro hd
      rw [score_job, hp, hf]
      simp only [hd]
      norm_num
    · intro hd
      rw [score_job, hp, hf]
      simp only [hd]
      norm_num

/-- Witness for C6 at concrete jobs. -/
theorem score_sum_witness :
    score_job ⟨"i", "s", "t", "c", none, true, none, none, some 0, some 10800, ["x"], none⟩ = 6 ∧
    score_job ⟨"i", "s", "t", "c", none, false, none, none, some 0, some 10800, ["x"], none⟩ = 4 ∧
    score_job ⟨"i", "s", "t", "c", none, false, none, none, some 0, some 86400, [], none⟩ = 0 := by
  refine ⟨?_, ?_, ?_⟩
  · exact score_sum_rule.1 _ 0 10800 (by simp) rfl rfl rfl (by norm_num)
  · exact score_sum_rule.2.1 _ 0 10800 (by simp) rfl rfl rfl (by norm_num)
  · exact score_sum_rule.2.2.1 _ 0 86400 rfl rfl rfl rfl (by norm_num)

/-! ## Persistence lemmas (C1, C5) -/

theorem findRow_append_new (db : DB) (id : String) (r : Row)
    (h : findRow db id = none) : findRow (db ++ [(id, r)]) id = some r := by
  have h' : db.find? (fun kv => decide (kv.1 = id)) = none := by
    rw [findRow] at h
    exact Option.map_eq_none'.mp h
  rw [findRow, List.find?_append, h']
  simp [List.find?]

theorem findRow_update_self (db : DB) (id : String) (r : Row) (row : Row)
    (h : findRow db id = some row) : findRow (updateRow db id r) id = some r := by
  induction db with
  | nil => simp [findRow, List.find?] at h
  | cons kv rest ih =>
    by_cases hk : kv.1 = id
    · simp [findRow, updateRow, hk, List.find?]
    · have h' : findRow rest id = some row := by
        rw [findRow] at h
        rw [List.find?_cons_of_neg _ (by simpa using hk)] at h
        exact h
      have goal' := ih h'
      rw [findRow, updateRow] at goal' ⊢
      simp only [List.map_cons, if_neg hk]
      rw [List.find?_cons_of_neg _ (by simpa using hk)]
      exact goal'

theorem upsert_one_new (db : DB) (j : Job) (now : Int)
    (h : findRow db j.job_id = none) :
    upsert_jobs db [j] now = (db ++ [(j.job_id, rowOfJob j now)], 1, 0) := by
  show upsertStep now (db, 0, 0) j = _
  simp [upsertStep, h]

theorem upsert_one_existing_newer (db : DB) (j : Job) (row : Row) (t now : Int)
    (hr : findRow db j.job_id = some row) (hf : row.fetched_at = .time t)
    (hlt : t < j.fetched_at.getD now) :
    upsert_jobs db [j] now =
      (updateRow db j.job_id
        { rowOfJob j now with posted_at := j.posted_at <|> row.posted_at }, 0, 1) := by
  show upsertStep now (db, 0, 0) j = _
  simp [upsertStep, hr, hf, hlt]

theorem upsert_one_existing_stale (db : DB) (j : Job) (row : Row) (t now : Int)
    (hr : findRow db j.job_id = some row) (hf : row.fetched_at = .time t)
    (hge : ¬ t < j.fetched_at.getD now) :
    upsert_jobs db [j] now = (db, 0, 0) := by
  show upsertStep now (db, 0, 0) j = _
  simp [upsertStep, hr, hf, hge]

theorem upsert_one_existing_bad (db : DB) (j : Job) (row : Row) (now : Int)
    (hr : findRow db j.job_id = some row)
    (hbad : row.fetched_at = FetchCol.missing ∨ row.fetched_at = FetchCol.unparsable) :
    upsert_jobs db [j] now =
      (updateRow db j.job_id
        { rowOfJob j now with posted_at := j.posted_at <|> row.posted_at }, 0, 1) := by
  show upsertStep now (db, 0, 0) j = _
  rcases hbad with hb | hb <;> simp [upsertStep, hr, hb]

/-- C1: a new `job_id` is inserted and counted as inserted; an existing
`job_id` is updated exactly when the incoming `fetched_at` is strictly
newer than the stored one (a missing or unparsable stored value always
updates); re-upserting the same id with a strictly newer `fetched_at`
gives `(inserted, updated) = (0, 1)` and stores the newer instant,
while a non-newer `fetched_at` leaves the database unchanged and counts
nothing (and, the model being a total function, raises no error). -/
theorem upsert_monotonic_rule :
    (∀ (db : DB) (j : Job) (now : Int), findRow db j.job_id = none →
      (upsert_jobs db [j] now).2 = (1, 0) ∧
      findRow (upsert_jobs db [j] now).1 j.job_id = some (rowOfJob j now)) ∧
    (∀ (db : DB) (j : Job) (row : Row) (t tj now : Int),
      findRow db j.job_id = some row → row.fetched_at = .time t → j.fetched_at = some tj →
      (t < tj → (upsert_jobs db [j] now).2 = (0, 1) ∧
        ∃ row', findRow (upsert_jobs db [j] now).1 j.job_id = some row' ∧
          row'.fetched_at = .time tj) ∧
      (¬ t < tj → upsert_jobs db [j] now = (db, 0, 0))) ∧
    (∀ (db : DB) (j : Job) (row : Row) (now : Int),
      findRow db j.job_id = some row →
      (row.fetched_at = FetchCol.missing ∨ row.fetched_at = FetchCol.unparsable) →
      (upsert_jobs db [j] now).2 = (0, 1)) ∧
    (∀ (db : DB) (j j' : Job) (t t' now now' : Int),
      findRow db j.job_id = none → j.fetched_at = some t →
      j'.job_id = j.job_id → j'.fetched_at = some t' →
      (t < t' → (upsert_jobs (upsert_jobs db [j] now).1 [j'] now').2 = (0, 1) ∧
        ∃ row', findRow (upsert_jobs (upsert_jobs db [j] now).1 [j'] now').1 j.job_id
          = some row' ∧ row'.fetched_at = .time t') ∧
      (¬ t < t' → upsert_jobs (upsert_jobs db [j] now).1 [j'] now'
        = ((upsert_jobs db [j] now).1, 0, 0))) := by
  have hnew : ∀ (db : DB) (j : Job) (now : Int), findRow db j.job_id = none →
      (upsert_jobs db [j] now).2 = (1, 0) ∧
      findRow (upsert_jobs db [j] now).1 j.job_id = some (rowOfJob j now) := by
    intro db j now h
    rw [upsert_one_new db j now h]
    exact ⟨rfl, findRow_append_new db j.job_id _ h⟩
  have hex : ∀ (db : DB) (j : Job) (row : Row) (t tj now : Int),
      findRow db j.job_id = some row → row.fetched_at = .time t → j.fetched_at = some tj →
      (t < tj → (upsert_jobs db [j] now).2 = (0, 1) ∧
        ∃ row', findRow (upsert_jobs db [j] now).1 j.job_id = some row' ∧
          row'.fetched_at = .time tj) ∧
      (¬ t < tj → upsert_jobs db [j] now = (db, 0, 0)) := by
    intro db j row t tj now hr hf hj
    constructor
    · intro hlt
      rw [upsert_one_existing_newer db j row t now hr hf (by simpa [hj] using hlt)]
      refine ⟨rfl, ⟨_, findRow_update_self db j.job_id _ row hr, ?_⟩⟩
      simp [rowOfJob, hj]
    · intro hge
      exact upsert_one_existing_stale db j row t now hr hf (by simpa [hj] using hge)
  refine ⟨hnew, hex, ?_, ?_⟩
  · intro db j row now hr hbad
    rw [upsert_one_existing_bad db j row now hr hbad]
  · intro db j j' t t' now now' h0 hf hid hf'
    have h1 := hnew db j now h0
    have hrow : findRow (upsert_jobs db [j] now).1 j'.job_id = some (rowOfJob j now) := by
      rw [hid]; exact h1.2
    have hfet : (rowOfJob j now).fetched_at = .time t := by simp [rowOfJob, hf]
    have h2 := hex (upsert_jobs db [j] now).1 j' (rowOfJob j now) t t' now' hrow hfet hf'
    constructor
    · intro hlt
      have := h2.1 hlt
      rw [hid] at this
      exact this
    · intro hge
      exact h2.2 hge

/-- Witness for C1: a concrete job inserted into the empty database,
then re-upserted once with a newer and once with an older
`fetched_at`. -/
theorem upsert_monotonic_witness :
    (upsert_jobs [] [⟨"i", "s", "t", "c", none, false, none, none, none, some 5, [], none⟩] 0).2
      = (1, 0) ∧
    (upsert_jobs
      (upsert_jobs [] [⟨"i", "s", "t", "c", none, false, none, none, none, some 5, [], none⟩] 0).1
      [⟨"i", "s2", "t", "c", none, false, none, none, none, some 9, [], none⟩] 0).2 = (0, 1) ∧
    (upsert_jobs
      (upsert_jobs [] [⟨"i", "s", "t", "c", none, false, none, none, none, some 5, [], none⟩] 0).1
      [⟨"i", "s2", "t", "c", none, false, none, none, none, some 3, [], none⟩] 0).2 = (0, 0) := by
  refine ⟨?_, ?_, ?_⟩
  · exact (upsert_monotonic_rule.1 []
      ⟨"i", "s", "t", "c", none, false, none, none, none, some 5, [], none⟩ 0 rfl).1
  · exact ((upsert_monotonic_rule.2.2.2 []
      ⟨"i", "s", "t", "c", none, false, none, none, none, some 5, [], none⟩
      ⟨"i", "s2", "t", "c", none, false, none, none, none, some 9, [], none⟩
      5 9 0 0 rfl rfl rfl rfl).1 (by norm_num)).1
  · rw [(upsert_monotonic_rule.2.2.2 []
      ⟨"i", "s", "t", "c", none, false, none, none, none, some 5, [], none⟩
      ⟨"i", "s2", "t", "c", none, false, none, none, none, some 3, [], none⟩
      5 3 0 0 rfl rfl rfl rfl).2 (by norm_num)]

/-- C5: when an upsert updates an existing record, every stored column
takes the incoming value except `posted_at`, which becomes
`COALESCE(incoming, stored)`; in particular a null incoming `posted_at`
leaves the stored `posted_at` unchanged. -/
theorem upsert_update_overwrites_except_posted_at :
    ∀ (db : DB) (j : Job) (row : Row) (now : Int),
      findRow db j.job_id = some row →
      (∀ t, row.fetched_at = .time t → t < j.fetched_at.getD now) →
      ∃ row', findRow (upsert_jobs db [j] now).1 j.job_id = some row' ∧
        row'.source = j.source ∧ row'.title = j.title ∧ row'.company = j.company ∧
        row'.location = j.location ∧ row'.remote = j.remote ∧ row'.url = j.url ∧
        row'.fetched_at = .time (j.fetched_at.getD now) ∧
        row'.tags = (if j.tags = [] then none else some j.tags) ∧ row'.raw = j.raw ∧
        row'.posted_at = (j.posted_at <|> row.posted_at) ∧
        (j.posted_at = none → row'.posted_at = row.posted_at) := by
  intro db j row now hr hnewer
  have hstep : upsert_jobs db [j] now =
      (updateRow db j.job_id
        { rowOfJob j now with posted_at := j.posted_at <|> row.posted_at }, 0, 1) := by
    cases hfc : row.fetched_at with
    | missing => exact upsert_one_existing_bad db j row now hr (Or.inl hfc)
    | unparsable => exact upsert_one_existing_bad db j row now hr (Or.inr hfc)
    | time t => exact upsert_one_existing_newer db j row t now hr hfc (hnewer t hfc)
  rw [hstep]
  refine ⟨_, findRow_update_self db j.job_id _ row hr, ?_⟩
  refine ⟨rfl, rfl, rfl, rfl, rfl, rfl, rfl, rfl, rfl, rfl, ?_⟩
  intro hnone
  simp [hnone]

/-- Witness for C5: a null incoming `posted_at` over a stored record
with `posted_at = some 7` keeps `some 7` while `source` is
overwritten. -/
theorem upsert_update_frame_witness :
    ∃ row', findRow (upsert_jobs
      [("i", ⟨"old", "t0", "c0", none, false, none, some 7, .time 1, none, none⟩)]
      [⟨"i", "s2", "t", "c", none, false, none, none, none, some 9, [], none⟩] 0).1 "i"
        = some row' ∧ row'.source = "s2" ∧ row'.posted_at = some 7 := by
  obtain ⟨row', hfind, hs, -, -, -, -, -, -, -, -, hp, hpn⟩ :=
    upsert_update_overwrites_except_posted_at
      [("i", ⟨"old", "t0", "c0", none, false, none, some 7, .time 1, none, none⟩)]
      ⟨"i", "s2", "t", "c", none, false, none, none, none, some 9, [], none⟩
      ⟨"old", "t0", "c0", none, false, none, some 7, .time 1, none, none⟩ 0 rfl
      (by intro t ht; simp at ht ⊢; omega)
  exact ⟨row', hfind, hs, by rw [hpn rfl]⟩

/-! ## Sorting lemmas (C7) -/

theorem jobLE_trans : ∀ a b c : Job, jobLE a b → jobLE b c → jobLE a c := by
  intro a b c hab hbc
  simp only [jobLE, decide_eq_true_eq] at hab hbc ⊢
  omega

theorem jobLE_total : ∀ a b : Job, jobLE a b || jobLE b a := by
  intro a b
  simp only [jobLE, Bool.or_eq_true, decide_eq_true_eq]
  omega

/-- C7: `sort_jobs` permutes its input into an order that is sorted by
score descending, then by `posted_at` (epoch seconds, with the
`datetime.min` sentinel for a missing value) descending, and the sort
is stable: jobs tied on both keys keep their relative input order. -/
theorem sort_total_order_stable :
    (∀ l : List Job, List.Perm (sort_jobs l) l) ∧
    (∀ l : List Job, (sort_jobs l).Pairwise (fun a b =>
      score_job b < score_job a ∨
      (score_job a = score_job b ∧ postedKey b ≤ postedKey a))) ∧
    (∀ (l : List Job) (s : Nat) (p : Int),
      (sort_jobs l).filter (fun j => decide (score_job j = s ∧ postedKey j = p)) =
        l.filter (fun j => decide (score_job j = s ∧ postedKey j = p))) := by
  have hsort : ∀ l : List Job, l ≠ [] → sort_jobs l = l.mergeSort jobLE := by
    intro l h
    rw [sort_jobs, if_neg h]
  refine ⟨?_, ?_, ?_⟩
  · intro l
    rcases eq_or_ne l [] with h | h
    · simp [h, sort_jobs]
    · rw [hsort l h]
      exact List.mergeSort_perm l jobLE
  · intro l
    rcases eq_or_ne l [] with h | h
    · simp [h, sort_jobs]
    · rw [hsort l h]
      have hp := List.sorted_mergeSort (fun a b c => jobLE_trans a b c)
        (fun a b => jobLE_total a b) l
      refine hp.imp ?_
      intro a b hab
      simp only [jobLE, decide_eq_true_eq, sortKey] at hab
      omega
  · intro l s p
    rcases eq_or_ne l [] with h | h
    · simp [h, sort_jobs]
    · rw [hsort l h]
      set P : Job → Bool := fun j => decide (score_job j = s ∧ postedKey j = p) with hP
      have hFkeys : ∀ x, P x → sortKey x = (-(s : Int), -p) := by
        intro x hx
        simp only [hP, decide_eq_true_eq] at hx
        simp [sortKey, hx.1, hx.2]
      have hpairF : (l.filter P).Pairwise fun a b => jobLE a b := by
        apply List.pairwise_of_forall_mem_list
        intro a ha b hb
        have hA := hFkeys a (List.of_mem_filter ha)
        have hB := hFkeys b (List.of_mem_filter hb)
        simp [jobLE, hA, hB]
      have hsub : List.Sublist (l.filter P) (l.mergeSort jobLE) :=
        List.sublist_mergeSort (fun a b c => jobLE_trans a b c)
          (fun a b => jobLE_total a b) hpairF (List.filter_sublist l)
      have hself : (l.filter P).filter P = l.filter P := by
        rw [List.filter_eq_self]
        intro a ha
        exact List.of_mem_filter ha
      have hsub2 : List.Sublist (l.filter P) ((l.mergeSort jobLE).filter P) := by
        have := hsub.filter P
        rwa [hself] at this
      have hperm : List.Perm ((l.mergeSort jobLE).filter P) (l.filter P) :=
        (List.mergeSort_perm l jobLE).filter P
      have hlen : (l.filter P).length = ((l.mergeSort jobLE).filter P).length :=
        (hperm.length_eq).symm
      exact (hsub2.eq_of_length hlen).symm

/-! ## Job id lemmas (C3) -/

theorem norm_if_empty (c : String) :
    (if c = "" then "" else asciiLowerS (pyStripS c)) = asciiLowerS (pyStripS c) := by
  by_cases h : c = ""
  · subst h
    decide
  · rw [if_neg h]

theorem sha256Hex_length (msg : List Nat) : (sha256Hex msg).length = 64 := by
  rw [sha256Hex]
  show (String.mk _).length = 64
  simp [String.length, hex8]

theorem make_job_id_eq_map (c t u : String) :
    make_job_id c t u = (if u = "" then some "" else canonicalize_url u).map
      (fun un => sha256Hex (utf8Encode
        (asciiLowerS (pyStripS c) ++ "|" ++ asciiLowerS (pyStripS t) ++ "|" ++ un).data)) := by
  rw [make_job_id, norm_if_empty c, norm_if_empty t]
  rcases hx : (if u = "" then some "" else canonicalize_url u) with _ | un <;> simp

/-- C3: `make_job_id` hashes the lower-cased, stripped company and
title and the canonicalized url, so any two inputs that agree after
this normalization receive the same 64-character id; in particular the
id is invariant under letter case, surrounding whitespace, a trailing
slash, and tracking query parameters, and
`make_job_id("Google", "Software Engineer",
"https://google.com/jobs/123?utm_source=linkedin")` equals
`make_job_id("google", "software engineer",
"https://google.com/jobs/123/")`. -/
theorem make_job_id_stability :
    (∀ c t u c' t' u' i i' : String,
      asciiLowerS (pyStripS c) = asciiLowerS (pyStripS c') →
      asciiLowerS (pyStripS t) = asciiLowerS (pyStripS t') →
      (if u = "" then some "" else canonicalize_url u) =
        (if u' = "" then some "" else canonicalize_url u') →
      make_job_id c t u = some i → make_job_id c' t' u' = some i' → i = i') ∧
    (∀ c t u i : String, make_job_id c t u = some i → i.length = 64) ∧
    make_job_id "Google" "Software Engineer" "https://google.com/jobs/123?utm_source=linkedin"
      = make_job_id "google" "software engineer" "https://google.com/jobs/123/" := by
  refine ⟨?_, ?_, ?_⟩
  · intro c t u c' t' u' i i' hc ht hu h1 h2
    rw [make_job_id_eq_map, hc, ht, hu] at h1
    rw [make_job_id_eq_map] at h2
    have := h1.symm.trans h2
    exact Option.some.inj this
  · intro c t u i h
    rw [make_job_id_eq_map] at h
    rcases hx : (if u = "" then some "" else canonicalize_url u) with _ | un <;> rw [hx] at h
    · exact absurd h (by simp)
    · simp only [Option.map_some', Option.some.injEq] at h
      rw [← h]
      exact sha256Hex_length _
  · rw [make_job_id_eq_map, make_job_id_eq_map]
    have hcanon : (if ("https://google.com/jobs/123?utm_source=linkedin" : String) = ""
        then some "" else canonicalize_url "https://google.com/jobs/123?utm_source=linkedin") =
        (if ("https://google.com/jobs/123/" : String) = ""
        then some "" else canonicalize_url "https://google.com/jobs/123/") := by decide
    rw [hcanon]
    have hc : asciiLowerS (pyStripS "Google") = asciiLowerS (pyStripS "google") := by decide
    have ht : asciiLowerS (pyStripS "Software Engineer")
        = asciiLowerS (pyStripS "software engineer") := by decide
    rw [hc, ht]

/-- Witness for C3: concrete inputs differing in case, whitespace and
tracking parameters receive the same id, of length 64. -/
theorem make_job_id_stability_witness :
    ∃ i : String,
      make_job_id " Google " "SOFTWARE Engineer"
        "https://google.com/jobs/123?utm_source=x" = some i ∧
      make_job_id "google" "software engineer" "https://google.com/jobs/123/" = some i ∧
      i.length = 64 := by
  obtain ⟨i1, h1⟩ : ∃ x, make_job_id " Google " "SOFTWARE Engineer"
      "https://google.com/jobs/123?utm_source=x" = some x := ⟨_, rfl⟩
  obtain ⟨i2, h2⟩ : ∃ x, make_job_id "google" "software engineer"
      "https://google.com/jobs/123/" = some x := ⟨_, rfl⟩
  have heq : i1 = i2 :=
    make_job_id_stability.1 " Google " "SOFTWARE Engineer"
      "https://google.com/jobs/123?utm_source=x" "google" "software engineer"
      "https://google.com/jobs/123/" i1 i2 (by decide) (by decide) (by decide) h1 h2
  exact ⟨i2, heq ▸ h1, h2, make_job_id_stability.2.1 _ _ _ i2 h2⟩

/-! ## Company extraction (C9) -/

theorem extractCompanyGo_eq_spec (title : Chars) : ∀ seps : List Chars,
    extractCompanyGo title seps =
      seps.findSome? fun sep =>
        match splitOnce sep title with
        | none => none
        | some (a, b) =>
          match exactlyOneSide (pyStrip a) (pyStrip b) with
          | some w => some w
          | none => if sep = " at ".data then some (pyStrip b) else none := by
  intro seps
  induction seps with
  | nil => rfl
  | cons sep rest ih =>
    rw [List.findSome?_cons]
    rcases hsp : splitOnce sep title with _ | ⟨a, b⟩
    · rw [extractCompanyGo, hsp, ih]
    · rw [extractCompanyGo, hsp]
      simp only [exactlyOneSide]
      by_cases hA : hasJobWord (pyStrip a) ∧ ¬ hasJobWord (pyStrip b)
      · simp only [if_pos hA]
      · simp only [if_neg hA]
        by_cases hB : hasJobWord (pyStrip b) ∧ ¬ hasJobWord (pyStrip a)
        · simp only [if_pos hB]
        · simp only [if_neg hB]
          by_cases h3 : sep = " at ".data
          · simp only [if_pos h3]
          · simp only [if_neg h3]
            exact ih

theorem extract_company_eq_spec (t : String) (h : t ≠ "") :
    extract_company_from_title t = (companySpec t.data).map String.mk := by
  rw [extract_company_from_title, if_neg h, companySpec, extractCompanyGo_eq_spec]

theorem jobNew_some (job_id source title company : String) (location : Option String)
    (remote : Bool) (url : Option String) (description : Option String)
    (posted_at : Option Int) (fetched_at : Option Int) (tags : List String)
    (raw : Option String) (j : Job)
    (h : jobNew job_id source title company location remote url description posted_at
      fetched_at tags raw = some j) :
    j = ⟨job_id, source, title, company, location, remote, url, description,
      posted_at, fetched_at, tags, raw⟩ := by
  rw [jobNew] at h
  split_ifs at h <;> (try cases h) <;> rfl

/-- C9 counterexample: with no source-provided company and the title
`"Foo at Bar"`, neither side of `" at "` contains a word of the
specification's vocabulary, yet the Normalizer extracts `"Bar"`
instead of falling back to `"Unknown"` (the `" at "` default branch). -/
theorem company_extraction_counterexample :
    (∃ j, normalize_rss_entry (fun _ => none) 0
        { source := some "rss", title := some "Foo at Bar", url := some "https://e.com/x" }
        = .ok j ∧ j.company = "Bar") ∧
    sideHasVocab claimVocab "Foo".data = false ∧
    sideHasVocab claimVocab "Bar".data = false ∧
    ("Bar" : String) ≠ "Unknown" := by
  refine ⟨⟨_, rfl, by decide⟩, by decide, by decide, by decide⟩

/-- C9 (amended): when a raw entry provides no (or an empty) company,
the Normalizer tries the separators `" at "`, `" - "`, `" | "` in that
order, splitting the title at the first occurrence; it takes the side
opposite a job-title word when exactly one stripped side contains a
word of the code's vocabulary (the specification's ten words plus
`developer`); for `" at "` alone, an inconclusive test still yields
the right-hand side; a separator that yields nothing falls through to
the next; and only when no separator yields anything (or the yield is
empty) does the company fall back to the literal `"Unknown"`. -/
theorem company_extraction_amended :
    ∀ (pd : String → Option Int) (now : Int) (e : RawEntry) (j : Job),
      (e.company = none ∨ e.company = some "") →
      normalize_rss_entry pd now e = .ok j →
      j.company =
        (match companySpec (pyStripS (e.title.getD "")).data with
         | some c => if String.mk c = "" then "Unknown" else String.mk c
         | none => "Unknown") := by
  intro pd now e j hc hok
  rw [normalize_rss_entry] at hok
  by_cases h1 : pyStripS (e.source.getD "") = ""
  · rw [if_pos h1] at hok
    cases hok
  rw [if_neg h1] at hok
  by_cases h2 : pyStripS (e.title.getD "") = ""
  · rw [if_pos h2] at hok
    cases hok
  rw [if_neg h2] at hok
  by_cases h3 : pyStripS (e.url.getD "") = ""
  · rw [if_pos h3] at hok
    cases hok
  rw [if_neg h3] at hok
  have hcomp : rssCompany e =
      (match companySpec (pyStripS (e.title.getD "")).data with
       | some c => if String.mk c = "" then "Unknown" else String.mk c
       | none => "Unknown") := by
    rw [rssCompany]
    have hc0 : (match e.company with
        | some c => if c ≠ "" then pyStripS c
          else (extract_company_from_title (pyStripS (e.title.getD ""))).getD ""
        | none => (extract_company_from_title (pyStripS (e.title.getD ""))).getD "")
        = (extract_company_from_title (pyStripS (e.title.getD ""))).getD "" := by
      rcases hc with hc | hc <;> rw [hc] <;> simp
    rw [hc0, extract_company_eq_spec _ h2]
    rcases hcs : companySpec (pyStripS (e.title.getD "")).data with _ | c <;> simp [hcs]
  rcases hmk : make_job_id (rssCompany e) (pyStripS (e.title.getD ""))
      (pyStripS (e.url.getD "")) with _ | jid <;> rw [hmk] at hok
  · cases hok
  have hok2 : (match jobNew jid (pyStripS (e.source.getD "")) (pyStripS (e.title.getD ""))
      (rssCompany e) (rssLocation e) (isRemote (pyStripS (e.title.getD "")) (rssLocation e))
      (some (pyStripS (e.url.getD ""))) (processDescriptionRss e.description)
      (parsePostedAtRss pd e) (some now) [] e.raw_entry with
    | some j => NormResult.ok j
    | none => NormResult.skip) = NormResult.ok j := hok
  rcases hjn : jobNew jid (pyStripS (e.source.getD "")) (pyStripS (e.title.getD ""))
      (rssCompany e) (rssLocation e) (isRemote (pyStripS (e.title.getD "")) (rssLocation e))
      (some (pyStripS (e.url.getD ""))) (processDescriptionRss e.description)
      (parsePostedAtRss pd e) (some now) [] e.raw_entry with _ | j0 <;> rw [hjn] at hok2
  · cases hok2
  have hj0 := jobNew_some _ _ _ _ _ _ _ _ _ _ _ _ _ hjn
  have hjj : j0 = j := by cases hok2; rfl
  rw [← hjj, hj0, ← hcomp]

/-- Witness for the amended C9 at a concrete entry whose title is
`"Software Engineer at Acme"`. -/
theorem company_extraction_amended_witness :
    ∃ j, normalize_rss_entry (fun _ => none) 0
      { source := some "rss", title := some "Software Engineer at Acme",
        url := some "https://e.com/y" } = .ok j ∧ j.company = "Acme" := by
  obtain ⟨j, hj⟩ : ∃ j, normalize_rss_entry (fun _ => none) 0
      { source := some "rss", title := some "Software Engineer at Acme",
        url := some "https://e.com/y" } = .ok j := ⟨_, rfl⟩
  have := company_extraction_amended (fun _ => none) 0
    { source := some "rss", title := some "Software Engineer at Acme",
      url := some "https://e.com/y" } j (Or.inl rfl) hj
  refine ⟨j, hj, ?_⟩
  rw [this]
  decide

/-! ## Normalization rejection and batch continuation (C10) -/

theorem make_job_id_some_ne_empty (c t u i : String) (h : make_job_id c t u = some i) :
    i ≠ "" := by
  rw [make_job_id_eq_map] at h
  rcases hx : (if u = "" then some "" else canonicalize_url u) with _ | un <;> rw [hx] at h
  · cases h
  · simp only [Option.map_some', Option.some.injEq] at h
    intro he
    have hl := sha256Hex_length (utf8Encode
      (asciiLowerS (pyStripS c) ++ "|" ++ asciiLowerS (pyStripS t) ++ "|" ++ un).data)
    rw [h, he] at hl
    exact absurd hl (by decide)

theorem rssCompany_ne_empty (e : RawEntry) : rssCompany e ≠ "" := by
  rw [rssCompany]
  split_ifs with h
  · decide
  · exact h

theorem ghCompany_ne_empty (e : RawEntry) : ghCompany e ≠ "" := by
  rw [ghCompany]
  split_ifs with h
  · decide
  · exact h

theorem rss_skip_iff (pd : String → Option Int) (now : Int) (e : RawEntry) :
    normalize_rss_entry pd now e = .skip ↔
      (pyStripS (e.source.getD "") = "" ∨ pyStripS (e.title.getD "") = "" ∨
       pyStripS (e.url.getD "") = "") := by
  rw [normalize_rss_entry]
  by_cases h1 : pyStripS (e.source.getD "") = ""
  · simp [h1]
  rw [if_neg h1]
  by_cases h2 : pyStripS (e.title.getD "") = ""
  · simp [h1, h2]
  rw [if_neg h2]
  by_cases h3 : pyStripS (e.url.getD "") = ""
  · simp [h1, h2, h3]
  rw [if_neg h3]
  rcases hmk : make_job_id (rssCompany e) (pyStripS (e.title.getD ""))
      (pyStripS (e.url.getD "")) with _ | jid
  · simp [h1, h2, h3]
  · have hjid := make_job_id_some_ne_empty _ _ _ _ hmk
    simp [jobNew, hjid, h1, h2, h3, rssCompany_ne_empty e]

theorem gh_skip_iff (pd : String → Option Int) (now : Int) (e : RawEntry) :
    normalize_greenhouse pd now e = .skip ↔
      (pyStripS (e.source.getD "") = "" ∨ pyStripS (e.title.getD "") = "" ∨
       pyStripS (e.url.getD "") = "") := by
  rw [normalize_greenhouse]
  by_cases h1 : pyStripS (e.source.getD "") = ""
  · simp [h1]
  rw [if_neg h1]
  by_cases h2 : pyStripS (e.title.getD "") = ""
  · simp [h1, h2]
  rw [if_neg h2]
  by_cases h3 : pyStripS (e.url.getD "") = ""
  · simp [h1, h2, h3]
  rw [if_neg h3]
  rcases hmk : make_job_id (ghCompany e) (pyStripS (e.title.getD ""))
      (pyStripS (e.url.getD "")) with _ | jid
  · simp [h1, h2, h3]
  · have hjid := make_job_id_some_ne_empty _ _ _ _ hmk
    simp [jobNew, hjid, h1, h2, h3, ghCompany_ne_empty e]

theorem lever_skip_iff (pd : String → Option Int) (now : Int) (e : RawEntry) :
    normalize_lever pd now e = .skip ↔
      (pyStripS (e.source.getD "") = "" ∨ pyStripS (e.title.getD "") = "" ∨
       pyStripS (e.url.getD "") = "") := by
  rw [normalize_lever]
  by_cases h1 : pyStripS (e.source.getD "") = ""
  · simp [h1]
  rw [if_neg h1]
  by_cases h2 : pyStripS (e.title.getD "") = ""
  · simp [h1, h2]
  rw [if_neg h2]
  by_cases h3 : pyStripS (e.url.getD "") = ""
  · simp [h1, h2, h3]
  rw [if_neg h3]
  rcases hmk : make_job_id (ghCompany e) (pyStripS (e.title.getD ""))
      (pyStripS (e.url.getD "")) with _ | jid
  · simp [h1, h2, h3]
  · have hjid := make_job_id_some_ne_empty _ _ _ _ hmk
    simp [jobNew, hjid, h1, h2, h3, ghCompany_ne_empty e]

theorem normalizeEntry_skip_iff (pd : String → Option Int) (now : Int) (e : RawEntry) :
    normalizeEntry pd now e = .skip ↔
      (pyStripS (e.source.getD "") = "" ∨ pyStripS (e.title.getD "") = "" ∨
       pyStripS (e.url.getD "") = "") := by
  rw [normalizeEntry]
  by_cases hg : asciiLowerS (pyStripS (e.source.getD "")) = "greenhouse"
  · rw [if_pos hg]
    exact gh_skip_iff pd now e
  rw [if_neg hg]
  by_cases hl : asciiLowerS (pyStripS (e.source.getD "")) = "lever"
  · rw [if_pos hl]
    exact lever_skip_iff pd now e
  rw [if_neg hl]
  exact rss_skip_iff pd now e

/-- C10: an entry is rejected with a structured skip exactly when its
source, title, or url is empty after trimming; and one entry never
aborts the batch: a valid entry contributes its Job to
`normalize_all`'s output no matter what surrounds it, while a skipped
or failing entry just disappears from the output. -/
theorem normalize_skip_iff_batch_continues :
    (∀ (pd : String → Option Int) (now : Int) (e : RawEntry),
      normalizeEntry pd now e = .skip ↔
        (pyStripS (e.source.getD "") = "" ∨ pyStripS (e.title.getD "") = "" ∨
         pyStripS (e.url.getD "") = "")) ∧
    (∀ (pd : String → Option Int) (now : Int) (pre post : List RawEntry)
        (e : RawEntry) (j : Job),
      normalizeEntry pd now e = .ok j →
      j ∈ normalize_all pd now (pre ++ e :: post)) ∧
    (∀ (pd : String → Option Int) (now : Int) (pre post : List RawEntry) (e : RawEntry),
      (∀ j, normalizeEntry pd now e ≠ .ok j) →
      normalize_all pd now (pre ++ e :: post)
        = normalize_all pd now pre ++ normalize_all pd now post) := by
  refine ⟨normalizeEntry_skip_iff, ?_, ?_⟩
  · intro pd now pre post e j hok
    simp only [normalize_all, List.filterMap_append, List.filterMap_cons, hok, normResultJob]
    simp
  · intro pd now pre post e hne
    have hnone : normResultJob (normalizeEntry pd now e) = none := by
      cases hcase : normalizeEntry pd now e with
      | ok j0 => exact absurd hcase (hne j0)
      | skip => rfl
      | error => rfl
    simp only [normalize_all, List.filterMap_append, List.filterMap_cons, hnone]

/-- Witness for C10: an entry with no url is skipped; a valid entry
between two invalid ones still lands in the batch output. -/
theorem normalize_skip_witness :
    normalizeEntry (fun _ => none) 0 { source := some "rss", title := some "T" } = .skip ∧
    (∃ j, normalizeEntry (fun _ => none) 0
        { source := some "rss", title := some "Engineer", url := some "https://e.com/1" }
        = .ok j ∧
      j ∈ normalize_all (fun _ => none) 0
        [{ source := some "rss" },
         { source := some "rss", title := some "Engineer", url := some "https://e.com/1" },
         {}]) := by
  constructor
  · exact (normalize_skip_iff_batch_continues.1 (fun _ => none) 0 _).mpr
      (Or.inr (Or.inr (by decide)))
  · obtain ⟨j, hj⟩ : ∃ j, normalizeEntry (fun _ => none) 0
        { source := some "rss", title := some "Engineer", url := some "https://e.com/1" }
        = .ok j := ⟨_, rfl⟩
    exact ⟨j, hj, normalize_skip_iff_batch_continues.2.1 (fun _ => none) 0
      [{ source := some "rss" }] [{}]
      { source := some "rss", title := some "Engineer", url := some "https://e.com/1" } j hj⟩

/-! ## URL canonicalization idempotence (C2) -/

/-- C2 counterexample: canonicalization is not idempotent.  On
`"http://h/a/;p/"` the trailing slash hides the `;` from `urlparse`'s
params detection, so the first pass yields `"http://h/a/;p"`; the
second pass then splits `;p` off as params, strips the newly exposed
trailing slash of the path, and yields `"http://h/a;p"`. -/
theorem canonicalize_url_not_idempotent :
    canonicalize_url "http://h/a/;p/" = some "http://h/a/;p" ∧
    (canonicalize_url "http://h/a/;p/").bind canonicalize_url = some "http://h/a;p" ∧
    (canonicalize_url "http://h/a/;p/").bind canonicalize_url
      ≠ canonicalize_url "http://h/a/;p/" := by
  refine ⟨by decide, by decide, by decide⟩

/-! ## Character-level lemmas (C2) -/

theorem char_toNat_ofNat (n : Nat) (h : n.isValidChar) : (Char.ofNat n).toNat = n := by
  rw [Char.ofNat, dif_pos h]
  simp [Char.ofNatAux, Char.toNat, UInt32.toNat]

theorem char_ofNat_toNat (c : Char) : Char.ofNat c.toNat = c := by
  apply Char.eq_of_val_eq
  have hv : c.toNat.isValidChar := c.valid
  rw [Char.ofNat, dif_pos hv]
  apply UInt32.eq_of_toBitVec_eq
  simp only [Char.ofNatAux, Char.toNat, UInt32.toNat]
  apply BitVec.eq_of_toNat_eq
  simp

theorem char_toNat_inj (c d : Char) (h : c.toNat = d.toNat) : c = d := by
  have := congrArg Char.ofNat h
  rwa [char_ofNat_toNat, char_ofNat_toNat] at this

theorem char_toNat_valid (c : Char) : c.toNat < 55296 ∨ (57343 < c.toNat ∧ c.toNat < 1114112) :=
  c.valid

theorem char_le_iff (c d : Char) : c ≤ d ↔ c.toNat ≤ d.toNat := by
  constructor
  · intro h
    exact h
  · intro h
    exact h

theorem char_eq_iff (c d : Char) : c = d ↔ c.toNat = d.toNat :=
  ⟨fun h => h ▸ rfl, char_toNat_inj c d⟩

theorem lower_toNat (c : Char) :
    (asciiLowerChar c).toNat = if 65 ≤ c.toNat ∧ c.toNat ≤ 90 then c.toNat + 32 else c.toNat := by
  rw [asciiLowerChar]
  by_cases h : 'A' ≤ c ∧ c ≤ 'Z'
  · have h65 : 65 ≤ c.toNat := (char_le_iff 'A' c).mp h.1
    have h90 : c.toNat ≤ 90 := (char_le_iff c 'Z').mp h.2
    rw [if_pos h, if_pos ⟨h65, h90⟩]
    exact char_toNat_ofNat _ (Or.inl (by omega))
  · have h' : ¬ (65 ≤ c.toNat ∧ c.toNat ≤ 90) := by
      intro hc
      exact h ⟨(char_le_iff 'A' c).mpr hc.1, (char_le_iff c 'Z').mpr hc.2⟩
    rw [if_neg h, if_neg h']

theorem lower_idem_char (c : Char) : asciiLowerChar (asciiLowerChar c) = asciiLowerChar c := by
  apply char_toNat_inj
  rw [lower_toNat, lower_toNat]
  split_ifs <;> omega

theorem lower_idem (l : Chars) : asciiLower (asciiLower l) = asciiLower l := by
  rw [asciiLower, asciiLower, List.map_map]
  exact List.map_congr_left fun c _ => lower_idem_char c

/-- A character whose lower-casing is outside `a`–`z` was unchanged by
lower-casing. -/
theorem lower_fix_special (c d : Char) (h : asciiLowerChar c = d)
    (hd : d.toNat < 97 ∨ 122 < d.toNat) : c = d := by
  apply char_toNat_inj
  have := congrArg Char.toNat h
  rw [lower_toNat] at this
  split_ifs at this with hc
  · omega
  · exact this

theorem lower_eq_special (c d : Char) (hd : d.toNat < 65 ∨ (90 < d.toNat ∧ d.toNat < 97) ∨
    122 < d.toNat) : (asciiLowerChar c = d ↔ c = d) := by
  constructor
  · intro h
    exact lower_fix_special c d h (by omega)
  · intro h
    subst h
    apply char_toNat_inj
    rw [lower_toNat]
    split_ifs with hc
    · omega
    · rfl

theorem pyIsSpace_toNat (c : Char) : pyIsSpace c = true ↔
    (c.toNat = 32 ∨ c.toNat = 9 ∨ c.toNat = 10 ∨ c.toNat = 13 ∨ c.toNat = 11 ∨ c.toNat = 12) := by
  rw [pyIsSpace]
  have h11 : (Char.ofNat 11).toNat = 11 := char_toNat_ofNat 11 (Or.inl (by omega))
  have h12 : (Char.ofNat 12).toNat = 12 := char_toNat_ofNat 12 (Or.inl (by omega))
  simp only [Bool.or_eq_true, decide_eq_true_eq, char_eq_iff]
  rw [h11, h12]
  constructor
  · intro h
    rcases h with ((((h | h) | h) | h) | h) | h <;> simp [h]
  · intro h
    rcases h with h | h | h | h | h | h <;> simp [h]

theorem lower_space_iff (c : Char) : pyIsSpace (asciiLowerChar c) = pyIsSpace c := by
  rcases hsp : pyIsSpace c with _ | _
  · rcases hsp2 : pyIsSpace (asciiLowerChar c) with _ | _
    · rfl
    · have := (pyIsSpace_toNat (asciiLowerChar c)).mp hsp2
      rw [lower_toNat] at this
      have hc := (pyIsSpace_toNat c)
      split_ifs at this with h
      · omega
      · rw [hsp] at hc
        simp at hc
        omega
  · have := (pyIsSpace_toNat c).mp hsp
    have heq : asciiLowerChar c = c := by
      apply char_toNat_inj
      rw [lower_toNat]
      split_ifs with h
      · omega
      · rfl
    rw [heq, hsp]

/-! ## List-level utility lemmas (C2) -/

theorem splitOnce_single_none (c : Char) (l : Chars) (h : c ∉ l) : splitOnce [c] l = none := by
  induction l with
  | nil => simp [splitOnce]
  | cons d rest ih =>
    have hcd : ¬ (c = d) := fun he => h (he ▸ List.mem_cons_self d rest)
    have hrest : c ∉ rest := fun hm => h (List.mem_cons_of_mem d hm)
    rw [splitOnce]
    have hpre : [c].isPrefixOf (d :: rest) = false := by
      simp [List.isPrefixOf, hcd]
    rw [hpre]
    simp only [Bool.false_eq_true, if_false, ih hrest]

theorem splitOnce_single_found (c : Char) (a b : Chars) (h : c ∉ a) :
    splitOnce [c] (a ++ c :: b) = some (a, b) := by
  induction a with
  | nil =>
    rw [List.nil_append, splitOnce]
    have hpre : [c].isPrefixOf (c :: b) = true := by simp [List.isPrefixOf]
    rw [hpre]
    simp
  | cons d rest ih =>
    have hcd : ¬ (c = d) := fun he => h (he ▸ List.mem_cons_self d rest)
    have hrest : c ∉ rest := fun hm => h (List.mem_cons_of_mem d hm)
    rw [List.cons_append, splitOnce]
    have hpre : [c].isPrefixOf (d :: (rest ++ c :: b)) = false := by
      simp [List.isPrefixOf, hcd]
    rw [hpre]
    simp only [Bool.false_eq_true, if_false, ih hrest]

theorem splitOnce_single_some (c : Char) : ∀ (l a b : Chars),
    splitOnce [c] l = some (a, b) → l = a ++ c :: b ∧ c ∉ a := by
  intro l
  induction l with
  | nil =>
    intro a b h
    rw [splitOnce] at h
    simp at h
  | cons d rest ih =>
    intro a b h
    rw [splitOnce] at h
    by_cases hcd : c = d
    · have hpre : [c].isPrefixOf (d :: rest) = true := by simp [List.isPrefixOf, hcd]
      rw [hpre] at h
      simp only [if_true, Option.some.injEq, Prod.mk.injEq, List.drop_succ_cons,
        List.drop_zero] at h
      rw [← h.1, ← h.2]
      subst hcd
      exact ⟨rfl, List.not_mem_nil _⟩
    · have hpre : [c].isPrefixOf (d :: rest) = false := by simp [List.isPrefixOf, hcd]
      rw [hpre] at h
      simp only [Bool.false_eq_true, if_false] at h
      rcases hre : splitOnce [c] rest with _ | ⟨a', b'⟩ <;> rw [hre] at h
      · cases h
      · simp only [Option.some.injEq, Prod.mk.injEq] at h
        obtain ⟨ha, hb⟩ := h
        obtain ⟨hr, hna⟩ := ih a' b' hre
        subst ha hb
        refine ⟨by rw [List.cons_append, hr], ?_⟩
        intro hm
        rcases List.mem_cons.mp hm with he | hm'
        · exact hcd he
        · exact hna hm'

theorem splitOnce_single_isSome (c : Char) (l : Chars) (h : c ∈ l) :
    (splitOnce [c] l).isSome := by
  induction l with
  | nil => cases h
  | cons d rest ih =>
    rw [splitOnce]
    by_cases hcd : c = d
    · have hpre : [c].isPrefixOf (d :: rest) = true := by simp [List.isPrefixOf, hcd]
      rw [hpre]
      simp
    · have hpre : [c].isPrefixOf (d :: rest) = false := by simp [List.isPrefixOf, hcd]
      rw [hpre]
      simp only [Bool.false_eq_true, if_false]
      have hrest : c ∈ rest := by
        rcases List.mem_cons.mp h with he | hm
        · exact absurd he hcd
        · exact hm
      rcases hre : splitOnce [c] rest with _ | ⟨a', b'⟩
      · rw [hre] at ih
        exact absurd (ih hrest) (by simp)
      · simp

theorem dropWhile_eq_self_of_not (p : Char → Bool) (l : Chars) (h : ∀ c ∈ l, ¬ p c) :
    l.dropWhile p = l := by
  cases l with
  | nil => rfl
  | cons c rest =>
    rw [List.dropWhile_cons_of_neg (h c (List.mem_cons_self c rest))]

theorem pyStrip_eq_self (l : Chars) (h : noWS l) : pyStrip l = l := by
  rw [pyStrip, dropWhile_eq_self_of_not _ _ h, dropWhile_eq_self_of_not, List.reverse_reverse]
  intro c hc
  exact h c (List.mem_reverse.mp hc)

theorem filter_unsafe_eq_self (l : Chars) (h : noWS l) :
    l.filter (fun c => !(c = '\t' || c = '\r' || c = '\n')) = l := by
  rw [List.filter_eq_self]
  intro c hc
  have hs := h c hc
  simp only [Bool.not_eq_true', Bool.or_eq_false_iff, decide_eq_false_iff_not]
  refine ⟨⟨fun he => hs ?_, fun he => hs ?_⟩, fun he => hs ?_⟩ <;> subst he <;> decide

theorem dropWhile_dropWhile (p : Char → Bool) (l : Chars) :
    (l.dropWhile p).dropWhile p = l.dropWhile p := by
  cases hd : l.dropWhile p with
  | nil => rfl
  | cons d rest =>
    have hhead : ¬ p d := by
      have := List.head?_dropWhile_not p l
      rw [hd] at this
      simpa using this
    rw [List.dropWhile_cons_of_neg hhead]

theorem rstripSlash_decomp (l : Chars) :
    ∃ sl : Chars, (∀ c ∈ sl, c = '/') ∧ l = rstripSlash l ++ sl := by
  refine ⟨(l.reverse.takeWhile (· = '/')).reverse, ?_, ?_⟩
  · intro c hc
    have := List.mem_takeWhile_imp (List.mem_reverse.mp hc)
    simpa using this
  · conv_rhs => rw [rstripSlash, ← List.reverse_append, List.takeWhile_append_dropWhile,
      List.reverse_reverse]

theorem rstripSlash_idem (l : Chars) : rstripSlash (rstripSlash l) = rstripSlash l := by
  rw [rstripSlash, rstripSlash, List.reverse_reverse, dropWhile_dropWhile]

theorem rstripSlash_subset (l : Chars) : ∀ c ∈ rstripSlash l, c ∈ l := by
  intro c hc
  obtain ⟨sl, _, hdec⟩ := rstripSlash_decomp l
  rw [hdec]
  exact List.mem_append_left _ hc

theorem rstripSlash_head (l : Chars) (h : rstripSlash l ≠ []) :
    (rstripSlash l).head? = l.head? := by
  obtain ⟨sl, _, hdec⟩ := rstripSlash_decomp l
  conv_rhs => rw [hdec]
  cases hr : rstripSlash l with
  | nil => exact absurd hr h
  | cons c rest => simp

theorem rstripSlash_last_ne (l : Chars) : '/' ∉ (rstripSlash l).reverse.take 1 := by
  rw [rstripSlash, List.reverse_reverse]
  intro hm
  cases hd : l.reverse.dropWhile (· = '/') with
  | nil => rw [hd] at hm; cases hm
  | cons d rest =>
    have hhead : ¬ (d = '/') := by
      have := List.head?_dropWhile_not (· = '/') l.reverse
      rw [hd] at this
      simpa using this
    rw [hd] at hm
    simp at hm
    exact hhead hm.symm

theorem noWS_mono (l l' : Chars) (hsub : ∀ c ∈ l', c ∈ l) (h : noWS l) : noWS l' :=
  fun c hc => h c (hsub c hc)

theorem noWS_asciiLower (l : Chars) (h : noWS l) : noWS (asciiLower l) := by
  intro c hc
  obtain ⟨c0, hc0, hlc⟩ := List.mem_map.mp hc
  intro hsp
  rw [← hlc, lower_space_iff] at hsp
  exact h c0 hc0 hsp

/-- A special character (outside both letter ranges) occurs in the
lower-cased list iff it occurs in the original. -/
theorem mem_asciiLower_special (l : Chars) (d : Char)
    (hd : d.toNat < 65 ∨ (90 < d.toNat ∧ d.toNat < 97) ∨ 122 < d.toNat) :
    d ∈ asciiLower l ↔ d ∈ l := by
  rw [asciiLower]
  constructor
  · intro hm
    obtain ⟨c0, hc0, hlc⟩ := List.mem_map.mp hm
    rwa [(lower_eq_special c0 d hd).mp hlc] at hc0
  · intro hm
    refine List.mem_map.mpr ⟨d, hm, ?_⟩
    exact (lower_eq_special d d hd).mpr rfl

theorem takeWhile_subset (p : Char → Bool) (l : Chars) : ∀ c ∈ l.takeWhile p, c ∈ l := by
  intro c hc
  exact (List.takeWhile_sublist p).mem hc

theorem dropWhile_subset (p : Char → Bool) (l : Chars) : ∀ c ∈ l.dropWhile p, c ∈ l := by
  intro c hc
  exact (List.dropWhile_sublist p).mem hc

/-! ## UTF-8 round trip (C2) -/

theorem contByte_true (b : Nat) (h : 128 ≤ b ∧ b ≤ 191) : contByte b = true := by
  simp only [contByte, Bool.and_eq_true, decide_eq_true_eq]
  omega

theorem utf8_roundtrip : ∀ (l : Chars) (fuel : Nat), (utf8Encode l).length ≤ fuel →
    utf8DecF fuel (utf8Encode l) = l := by
  intro l
  induction l with
  | nil =>
    intro fuel _
    cases fuel <;> rfl
  | cons c rest ih =>
    intro fuel hf
    have hval := char_toNat_valid c
    rcases Nat.lt_or_ge c.toNat 128 with h1 | h1
    · have henc : utf8Encode (c :: rest) = c.toNat :: utf8Encode rest := by
        rw [utf8Encode, List.flatMap_cons, utf8EncodeChar]
        simp only [if_pos h1]
        rfl
      rw [henc] at hf ⊢
      cases fuel with
      | zero => simp at hf
      | succ f =>
        simp only [utf8DecF, if_pos h1, char_ofNat_toNat]
        rw [ih f (by simp at hf; omega)]
    rcases Nat.lt_or_ge c.toNat 2048 with h2 | h2
    · have henc : utf8Encode (c :: rest) =
          (192 + c.toNat / 64) :: (128 + c.toNat % 64) :: utf8Encode rest := by
        rw [utf8Encode, List.flatMap_cons, utf8EncodeChar]
        rw [if_neg (by omega), if_pos h2]
        rfl
      rw [henc] at hf ⊢
      cases fuel with
      | zero => simp at hf
      | succ f =>
        simp only [utf8DecF]
        rw [if_neg (by omega), if_pos (by omega : 194 ≤ 192 + c.toNat / 64 ∧
          192 + c.toNat / 64 ≤ 223)]
        rw [if_pos (contByte_true _ (by omega))]
        have hvc : Char.ofNat ((192 + c.toNat / 64 - 192) * 64 + (128 + c.toNat % 64 - 128))
            = c := by
          have harith : (192 + c.toNat / 64 - 192) * 64 + (128 + c.toNat % 64 - 128)
              = c.toNat := by omega
          rw [harith, char_ofNat_toNat]
        rw [hvc, ih f (by simp at hf; omega)]
    rcases Nat.lt_or_ge c.toNat 65536 with h3 | h3
    · have henc : utf8Encode (c :: rest) =
          (224 + c.toNat / 4096) :: (128 + c.toNat / 64 % 64) :: (128 + c.toNat % 64)
            :: utf8Encode rest := by
        rw [utf8Encode, List.flatMap_cons, utf8EncodeChar]
        rw [if_neg (by omega), if_neg (by omega), if_pos h3]
        rfl
      rw [henc] at hf ⊢
      cases fuel with
      | zero => simp at hf
      | succ f =>
        simp only [utf8DecF]
        rw [if_neg (by omega), if_neg (by omega), if_pos (by omega :
          224 ≤ 224 + c.toNat / 4096 ∧ 224 + c.toNat / 4096 ≤ 239)]
        rw [if_pos ?cond]
        case cond =>
          refine ⟨contByte_true _ (by omega), contByte_true _ (by omega), ?_, ?_⟩
          · intro hb
            omega
          · intro hb
            rcases hval with hv | hv
            · omega
            · omega
        have hvc : Char.ofNat ((224 + c.toNat / 4096 - 224) * 4096 +
            (128 + c.toNat / 64 % 64 - 128) * 64 + (128 + c.toNat % 64 - 128)) = c := by
          have harith : (224 + c.toNat / 4096 - 224) * 4096 +
              (128 + c.toNat / 64 % 64 - 128) * 64 + (128 + c.toNat % 64 - 128)
              = c.toNat := by omega
          rw [harith, char_ofNat_toNat]
        rw [hvc, ih f (by simp at hf; omega)]
    · have hub : c.toNat < 1114112 := by
        rcases hval with hv | hv
        · omega
        · omega
      have henc : utf8Encode (c :: rest) =
          (240 + c.toNat / 262144) :: (128 + c.toNat / 4096 % 64) ::
          (128 + c.toNat / 64 % 64) :: (128 + c.toNat % 64) :: utf8Encode rest := by
        rw [utf8Encode, List.flatMap_cons, utf8EncodeChar]
        rw [if_neg (by omega), if_neg (by omega), if_neg (by omega)]
        rfl
      rw [henc] at hf ⊢
      cases fuel with
      | zero => simp at hf
      | succ f =>
        simp only [utf8DecF]
        rw [if_neg (by omega), if_neg (by omega), if_neg (by omega),
          if_pos (by omega : 240 ≤ 240 + c.toNat / 262144 ∧ 240 + c.toNat / 262144 ≤ 244)]
        rw [if_pos ?cond4]
        case cond4 =>
          refine ⟨contByte_true _ (by omega), contByte_true _ (by omega),
            contByte_true _ (by omega), ?_, ?_⟩
          · intro hb
            omega
          · intro hb
            omega
        have hvc : Char.ofNat ((240 + c.toNat / 262144 - 240) * 262144 +
            (128 + c.toNat / 4096 % 64 - 128) * 4096 +
            (128 + c.toNat / 64 % 64 - 128) * 64 + (128 + c.toNat % 64 - 128)) = c := by
          have harith : (240 + c.toNat / 262144 - 240) * 262144 +
              (128 + c.toNat / 4096 % 64 - 128) * 4096 +
              (128 + c.toNat / 64 % 64 - 128) * 64 + (128 + c.toNat % 64 - 128)
              = c.toNat := by omega
          rw [harith, char_ofNat_toNat]
        rw [hvc, ih f (by simp at hf; omega)]

theorem utf8Dec_encode (l : Chars) : utf8Dec (utf8Encode l) = l :=
  utf8_roundtrip l (utf8Encode l).length (Nat.le_refl _)

/-! ## Percent-encoding round trip (C2) -/

theorem utf8EncodeChar_small (c : Char) (h : c.toNat < 128) : utf8EncodeChar c = [c.toNat] := by
  rw [utf8EncodeChar]
  simp only [if_pos h]

theorem utf8Encode_cons (c : Char) (l : Chars) :
    utf8Encode (c :: l) = utf8EncodeChar c ++ utf8Encode l := by
  simp [utf8Encode]

theorem utf8Encode_append (a b : Chars) :
    utf8Encode (a ++ b) = utf8Encode a ++ utf8Encode b := by
  simp [utf8Encode]

theorem utf8EncodeChar_lt (c : Char) : ∀ b ∈ utf8EncodeChar c, b < 256 := by
  intro b hb
  have hval := char_toNat_valid c
  rw [utf8EncodeChar] at hb
  split_ifs at hb with h1 h2 h3 <;> simp at hb <;> omega

theorem utf8Encode_lt (l : Chars) : ∀ b ∈ utf8Encode l, b < 256 := by
  intro b hb
  rw [utf8Encode, List.mem_flatMap] at hb
  obtain ⟨c, _, hc⟩ := hb
  exact utf8EncodeChar_lt c b hc

theorem upHexChar_toNat (n : Nat) (h : n < 16) :
    (upHexChar n).toNat = if n < 10 then 48 + n else 55 + n := by
  rw [upHexChar]
  by_cases h10 : n < 10
  · rw [if_pos h10, if_pos h10, char_toNat_ofNat]
    left
    omega
  · rw [if_neg h10, if_neg h10, char_toNat_ofNat]
    left
    omega

theorem hexDigitVal_upHex (n : Nat) (h : n < 16) :
    hexDigitVal (upHexChar n).toNat = some n := by
  rw [hexDigitVal, upHexChar_toNat n h]
  by_cases h10 : n < 10
  · rw [if_pos h10, if_pos (by omega)]
    have hn : 48 + n - 48 = n := by omega
    rw [hn]
  · rw [if_neg h10, if_neg (by omega), if_pos (by omega)]
    have hn : 55 + n - 55 = n := by omega
    rw [hn]

theorem quotePlusByte_bytes (b : Nat) (hb : b < 256) :
    utf8Encode ((quotePlusByte b).map fun c => if c = '+' then ' ' else c) = pctBlock b := by
  rw [quotePlusByte, pctBlock]
  by_cases hs : quoteSafeByte b
  · rw [if_pos hs, if_pos hs]
    have hrange : b < 128 ∧ b ≠ 43 := by
      simp only [quoteSafeByte, Bool.or_eq_true, decide_eq_true_eq] at hs
      omega
    have hv : b.isValidChar := Or.inl (by omega)
    have ht : (Char.ofNat b).toNat = b := char_toNat_ofNat b hv
    simp only [List.map_cons, List.map_nil]
    rw [if_neg (by rw [char_eq_iff, ht]; change ¬ (b = 43); omega)]
    rw [utf8Encode_cons, utf8EncodeChar_small _ (by omega : (Char.ofNat b).toNat < 128), ht]
    rfl
  by_cases h32 : b = 32
  · subst h32
    rw [if_neg hs, if_pos rfl, if_neg hs, if_pos rfl]
    decide
  · rw [if_neg hs, if_neg h32, if_neg hs, if_neg h32]
    have h1 : b / 16 < 16 := by omega
    have h2 : b % 16 < 16 := by omega
    have ht1 := upHexChar_toNat _ h1
    have ht2 := upHexChar_toNat _ h2
    simp only [List.map_cons, List.map_nil]
    rw [if_neg (by rw [char_eq_iff]; decide)]
    rw [if_neg (by rw [char_eq_iff, ht1]; change ¬ _ = 43; split_ifs <;> omega)]
    rw [if_neg (by rw [char_eq_iff, ht2]; change ¬ _ = 43; split_ifs <;> omega)]
    rw [utf8Encode_cons, utf8Encode_cons, utf8Encode_cons]
    rw [utf8EncodeChar_small '%' (by decide)]
    rw [utf8EncodeChar_small _ (by rw [ht1]; split_ifs <;> omega)]
    rw [utf8EncodeChar_small _ (by rw [ht2]; split_ifs <;> omega)]
    rfl

theorem quotePlus_bytes (l : Chars) :
    utf8Encode ((quotePlus l).map fun c => if c = '+' then ' ' else c)
      = (utf8Encode l).flatMap pctBlock := by
  rw [quotePlus]
  have hgen : ∀ (bs : List Nat), (∀ b ∈ bs, b < 256) →
      utf8Encode ((bs.flatMap quotePlusByte).map fun c => if c = '+' then ' ' else c)
        = bs.flatMap pctBlock := by
    intro bs
    induction bs with
    | nil =>
      intro _
      rfl
    | cons b rest ih =>
      intro h256
      rw [List.flatMap_cons, List.flatMap_cons, List.map_append, utf8Encode_append]
      rw [quotePlusByte_bytes b (h256 b (List.mem_cons_self b rest))]
      rw [ih fun x hx => h256 x (List.mem_cons_of_mem b hx)]
  exact hgen (utf8Encode l) (utf8Encode_lt l)

theorem pctDecodeBytesF_pct (fuel h1 h2 : Nat) (r2 : List Nat) (x y : Nat)
    (hx : hexDigitVal h1 = some x) (hy : hexDigitVal h2 = some y) :
    pctDecodeBytesF (fuel + 1) (37 :: h1 :: h2 :: r2)
      = (16 * x + y) :: pctDecodeBytesF fuel r2 := by
  have h : pctDecodeBytesF (fuel + 1) (37 :: h1 :: h2 :: r2)
      = match hexDigitVal h1, hexDigitVal h2 with
        | some x, some y => (16 * x + y) :: pctDecodeBytesF fuel r2
        | _, _ => 37 :: pctDecodeBytesF fuel (h1 :: h2 :: r2) := by
    simp only [pctDecodeBytesF, if_true]
  rw [h, hx, hy]

theorem pctDecode_blocks : ∀ (xs : List Nat), (∀ b ∈ xs, b < 256) → ∀ (fuel : Nat),
    (xs.flatMap pctBlock).length ≤ fuel → pctDecodeBytesF fuel (xs.flatMap pctBlock) = xs := by
  intro xs
  induction xs with
  | nil =>
    intro _ fuel _
    cases fuel <;> rfl
  | cons b rest ih =>
    intro h256 fuel hf
    have hb : b < 256 := h256 b (List.mem_cons_self b rest)
    have hrest256 : ∀ x ∈ rest, x < 256 := fun x hx => h256 x (List.mem_cons_of_mem b hx)
    rw [List.flatMap_cons] at hf ⊢
    by_cases hs : quoteSafeByte b
    · have hb37 : b ≠ 37 := by
        simp only [quoteSafeByte, Bool.or_eq_true, decide_eq_true_eq] at hs
        omega
      rw [pctBlock, if_pos hs] at hf ⊢
      rw [List.singleton_append] at hf ⊢
      cases fuel with
      | zero => simp at hf
      | succ f =>
        simp only [pctDecodeBytesF, if_neg hb37]
        rw [ih hrest256 f (by simp at hf ⊢; omega)]
    by_cases h32 : b = 32
    · subst h32
      rw [pctBlock, if_neg hs, if_pos rfl] at hf ⊢
      rw [List.singleton_append] at hf ⊢
      cases fuel with
      | zero => simp at hf
      | succ f =>
        simp only [pctDecodeBytesF, if_neg (by omega : ¬ (32 : Nat) = 37)]
        rw [ih hrest256 f (by simp at hf ⊢; omega)]
    · rw [pctBlock, if_neg hs, if_neg h32] at hf ⊢
      simp only [List.cons_append, List.nil_append] at hf ⊢
      cases fuel with
      | zero => simp at hf
      | succ f =>
        rw [pctDecodeBytesF_pct f _ _ _ _ _ (hexDigitVal_upHex _ (by omega : b / 16 < 16))
          (hexDigitVal_upHex _ (by omega : b % 16 < 16))]
        have hv : 16 * (b / 16) + b % 16 = b := by omega
        rw [hv, ih hrest256 f (by simp at hf ⊢; omega)]

theorem unquotePlus_quotePlus (l : Chars) : unquotePlus (quotePlus l) = l := by
  rw [unquotePlus, pyUnquote, quotePlus_bytes, pctDecodeBytes]
  rw [pctDecode_blocks (utf8Encode l) (utf8Encode_lt l) _ (Nat.le_refl _)]
  exact utf8Dec_encode l

/-! ## Query-string round trip (C2) -/

theorem quotePlus_charset (l : Chars) : ∀ c ∈ quotePlus l,
    37 ≤ c.toNat ∧ c.toNat ≤ 126 ∧ c.toNat ≠ 58 ∧ c.toNat ≠ 63 ∧ c.toNat ≠ 35 ∧
    c.toNat ≠ 38 ∧ c.toNat ≠ 61 ∧ c.toNat ≠ 59 ∧ c.toNat ≠ 47 := by
  intro c hc
  rw [quotePlus, List.mem_flatMap] at hc
  obtain ⟨b, hb, hcb⟩ := hc
  have hb256 : b < 256 := utf8Encode_lt l b hb
  rw [quotePlusByte] at hcb
  by_cases hs : quoteSafeByte b
  · rw [if_pos hs] at hcb
    simp only [List.mem_singleton] at hcb
    subst hcb
    simp only [quoteSafeByte, Bool.or_eq_true, decide_eq_true_eq] at hs
    have ht : (Char.ofNat b).toNat = b := char_toNat_ofNat b (Or.inl (by omega))
    rw [ht]
    omega
  by_cases h32 : b = 32
  · subst h32
    rw [if_neg hs, if_pos rfl] at hcb
    simp only [List.mem_singleton] at hcb
    subst hcb
    refine ⟨by decide, by decide, by decide, by decide, by decide, by decide, by decide,
      by decide, by decide⟩
  · rw [if_neg hs, if_neg h32] at hcb
    have h16a : b / 16 < 16 := by omega
    have h16b : b % 16 < 16 := by omega
    simp only [List.mem_cons, List.not_mem_nil, or_false] at hcb
    rcases hcb with hcb | hcb | hcb
    · subst hcb
      refine ⟨by decide, by decide, by decide, by decide, by decide, by decide, by decide,
        by decide, by decide⟩
    · subst hcb
      rw [upHexChar_toNat _ h16a]
      split_ifs <;> omega
    · subst hcb
      rw [upHexChar_toNat _ h16b]
      split_ifs <;> omega

theorem utf8EncodeChar_ne_nil (c : Char) : utf8EncodeChar c ≠ [] := by
  rw [utf8EncodeChar]
  split_ifs <;> simp

theorem utf8Encode_ne_nil (l : Chars) (h : l ≠ []) : utf8Encode l ≠ [] := by
  cases l with
  | nil => exact absurd rfl h
  | cons c rest =>
    rw [utf8Encode_cons]
    intro hcontra
    exact utf8EncodeChar_ne_nil c (List.append_eq_nil.mp hcontra).1

theorem quotePlusByte_ne_nil (b : Nat) : quotePlusByte b ≠ [] := by
  rw [quotePlusByte]
  split_ifs <;> simp

theorem quotePlus_ne_nil (l : Chars) (h : l ≠ []) : quotePlus l ≠ [] := by
  rw [quotePlus]
  rcases hb : utf8Encode l with _ | ⟨b, bs⟩
  · exact absurd hb (utf8Encode_ne_nil l h)
  · rw [List.flatMap_cons]
    intro hcontra
    exact quotePlusByte_ne_nil b (List.append_eq_nil.mp hcontra).1

theorem pctDecodeBytesF_ne_nil (fuel : Nat) (b : Nat) (rest : List Nat) :
    pctDecodeBytesF (fuel + 1) (b :: rest) ≠ [] := by
  simp only [pctDecodeBytesF]
  split_ifs
  · rcases rest with _ | ⟨h1, _ | ⟨h2, r2⟩⟩ <;> simp
    rcases hexDigitVal h1 with _ | x <;> rcases hexDigitVal h2 with _ | y <;> simp
  · simp

theorem utf8DecF_ne_nil (fuel : Nat) (b : Nat) (rest : List Nat) :
    utf8DecF (fuel + 1) (b :: rest) ≠ [] := by
  simp only [utf8DecF]
  split_ifs <;> try simp
  all_goals
    rcases rest with _ | ⟨b2, _ | ⟨b3, _ | ⟨b4, r4⟩⟩⟩ <;> simp <;> split_ifs <;> simp

theorem unquotePlus_ne_nil (l : Chars) (h : l ≠ []) : unquotePlus l ≠ [] := by
  rw [unquotePlus, pyUnquote]
  have hm : l.map (fun c => if c = '+' then ' ' else c) ≠ [] := by
    cases l with
    | nil => exact absurd rfl h
    | cons c rest => simp
  rcases he : utf8Encode (l.map fun c => if c = '+' then ' ' else c) with _ | ⟨b, bs⟩
  · exact absurd he (utf8Encode_ne_nil _ hm)
  · rw [pctDecodeBytes]
    rcases hd : pctDecodeBytesF (b :: bs).length (b :: bs) with _ | ⟨d, ds⟩
    · rw [List.length_cons] at hd
      exact absurd hd (pctDecodeBytesF_ne_nil bs.length b bs)
    · rw [utf8Dec, List.length_cons]
      exact utf8DecF_ne_nil ds.length d ds

theorem joinChar_mem (sep : Char) : ∀ (fs : List Chars) (c : Char), c ∈ joinChar sep fs →
    c = sep ∨ ∃ f ∈ fs, c ∈ f := by
  intro fs
  induction fs with
  | nil =>
    intro c hc
    cases hc
  | cons a rest ih =>
    intro c hc
    cases rest with
    | nil =>
      rw [joinChar] at hc
      exact Or.inr ⟨a, List.mem_cons_self a [], hc⟩
    | cons b rest' =>
      rw [joinChar] at hc
      rcases List.mem_append.mp hc with hc | hc
      · exact Or.inr ⟨a, List.mem_cons_self _ _, hc⟩
      · rcases List.mem_cons.mp hc with hc | hc
        · exact Or.inl hc
        · rcases ih c hc with hc | ⟨f, hf, hcf⟩
          · exact Or.inl hc
          · exact Or.inr ⟨f, List.mem_cons_of_mem a hf, hcf⟩

theorem pySplitChar_no_sep (sep : Char) : ∀ (l : Chars), sep ∉ l →
    pySplitChar sep l = [l] := by
  intro l
  induction l with
  | nil =>
    intro _
    rfl
  | cons c rest ih =>
    intro h
    have hcs : ¬ (c = sep) := fun he => h (List.mem_cons.mpr (Or.inl he.symm))
    rw [pySplitChar, if_neg hcs]
    rw [ih fun hm => h (List.mem_cons_of_mem c hm)]

theorem pySplitChar_sep (sep : Char) : ∀ (a t : Chars), sep ∉ a →
    pySplitChar sep (a ++ sep :: t) = a :: pySplitChar sep t := by
  intro a
  induction a with
  | nil =>
    intro t _
    rw [List.nil_append, pySplitChar, if_pos rfl]
  | cons c a' ih =>
    intro t h
    have hcs : ¬ (c = sep) := fun he => h (List.mem_cons.mpr (Or.inl he.symm))
    rw [List.cons_append, pySplitChar, if_neg hcs]
    rw [ih t fun hm => h (List.mem_cons_of_mem c hm)]

theorem pySplitChar_joinChar (sep : Char) : ∀ (fs : List Chars), fs ≠ [] →
    (∀ f ∈ fs, sep ∉ f) → pySplitChar sep (joinChar sep fs) = fs := by
  intro fs
  induction fs with
  | nil =>
    intro h _
    exact absurd rfl h
  | cons a rest ih =>
    intro _ hns
    cases rest with
    | nil =>
      rw [joinChar]
      exact pySplitChar_no_sep sep a (hns a (List.mem_cons_self a []))
    | cons b rest' =>
      rw [joinChar, pySplitChar_sep sep a _ (hns a (List.mem_cons_self _ _))]
      rw [ih (by simp) fun f hf => hns f (List.mem_cons_of_mem a hf)]

theorem eq_not_mem_quotePlus (k : Chars) : '=' ∉ quotePlus k :=
  fun hm => (quotePlus_charset k '=' hm).2.2.2.2.2.2.1 (by decide)

theorem amp_not_mem_field (k v : Chars) : '&' ∉ quotePlus k ++ '=' :: quotePlus v := by
  intro hm
  rcases List.mem_append.mp hm with hm | hm
  · exact (quotePlus_charset k '&' hm).2.2.2.2.2.1 (by decide)
  · rcases List.mem_cons.mp hm with hm | hm
    · exact absurd hm (by decide)
    · exact (quotePlus_charset v '&' hm).2.2.2.2.2.1 (by decide)

theorem joinChar_cons (sep : Char) (a : Chars) (fs : List Chars) (h : fs ≠ []) :
    joinChar sep (a :: fs) = a ++ sep :: joinChar sep fs := by
  cases fs with
  | nil => exact absurd rfl h
  | cons b rest => rw [joinChar]

theorem parseQsl_fields : ∀ (ps : List (Chars × Chars)), ps ≠ [] →
    (∀ p ∈ ps, p.2 ≠ []) →
    parseQsl (joinChar '&' (ps.map fun p => quotePlus p.1 ++ '=' :: quotePlus p.2)) = ps := by
  intro ps
  induction ps with
  | nil =>
    intro h _
    exact absurd rfl h
  | cons p ps' ih =>
    intro _ h
    obtain ⟨k, v⟩ := p
    have hv : v ≠ [] := h (k, v) (List.mem_cons_self _ _)
    have hfne : quotePlus k ++ '=' :: quotePlus v ≠ [] := by simp
    cases ps' with
    | nil =>
      show parseQsl (quotePlus k ++ '=' :: quotePlus v) = [(k, v)]
      rw [parseQsl, pySplitChar_no_sep '&' _ (amp_not_mem_field k v), List.foldr_cons,
        List.foldr_nil]
      rw [qslStep, if_neg hfne, splitOnce_single_found '=' _ _ (eq_not_mem_quotePlus k)]
      show (if quotePlus v = [] then [] else
        [(unquotePlus (quotePlus k), unquotePlus (quotePlus v))]) = [(k, v)]
      rw [if_neg (quotePlus_ne_nil v hv), unquotePlus_quotePlus, unquotePlus_quotePlus]
    | cons q rest' =>
      rw [List.map_cons, joinChar_cons '&' _ _ (by simp), parseQsl,
        pySplitChar_sep '&' _ _ (amp_not_mem_field k v), List.foldr_cons, ← parseQsl]
      rw [ih (by simp) fun p hp => h p (List.mem_cons_of_mem _ hp)]
      rw [qslStep, if_neg hfne, splitOnce_single_found '=' _ _ (eq_not_mem_quotePlus k)]
      show (if quotePlus v = [] then q :: rest' else
        (unquotePlus (quotePlus k), unquotePlus (quotePlus v)) :: q :: rest') = (k, v) :: q :: rest'
      rw [if_neg (quotePlus_ne_nil v hv), unquotePlus_quotePlus, unquotePlus_quotePlus]

theorem groupInsert_new (acc : List (Chars × List Chars)) (k : Chars) (v : Chars)
    (h : ∀ e ∈ acc, e.1 ≠ k) : groupInsert acc k v = acc ++ [(k, [v])] := by
  induction acc with
  | nil => rfl
  | cons e acc' ih =>
    obtain ⟨k0, vs0⟩ := e
    have hk0 : k0 ≠ k := h (k0, vs0) (List.mem_cons_self _ _)
    rw [groupInsert, if_neg hk0, ih fun e he => h e (List.mem_cons_of_mem _ he),
      List.cons_append]

theorem groupInsert_ext (acc : List (Chars × List Chars)) (k : Chars) (vs : List Chars)
    (v : Chars) (h : ∀ e ∈ acc, e.1 ≠ k) :
    groupInsert (acc ++ [(k, vs)]) k v = acc ++ [(k, vs ++ [v])] := by
  induction acc with
  | nil =>
    rw [List.nil_append, List.nil_append, groupInsert, if_pos rfl]
  | cons e acc' ih =>
    obtain ⟨k0, vs0⟩ := e
    have hk0 : k0 ≠ k := h (k0, vs0) (List.mem_cons_self _ _)
    rw [List.cons_append, groupInsert, if_neg hk0,
      ih fun e he => h e (List.mem_cons_of_mem _ he), List.cons_append]

theorem foldl_groupInsert_vals (k : Chars) : ∀ (vs : List Chars)
    (acc : List (Chars × List Chars)) (vs0 : List Chars), (∀ e ∈ acc, e.1 ≠ k) →
    List.foldl (fun d kv => groupInsert d kv.1 kv.2) (acc ++ [(k, vs0)])
      (vs.map fun v => (k, v)) = acc ++ [(k, vs0 ++ vs)] := by
  intro vs
  induction vs with
  | nil =>
    intro acc vs0 _
    simp
  | cons v vs' ih =>
    intro acc vs0 h
    rw [List.map_cons, List.foldl_cons]
    show List.foldl _ (groupInsert (acc ++ [(k, vs0)]) k v) _ = _
    rw [groupInsert_ext acc k vs0 v h, ih acc (vs0 ++ [v]) h, List.append_assoc,
      List.singleton_append]

theorem foldl_groupInsert_flatten : ∀ (D acc : List (Chars × List Chars)),
    (∀ kv ∈ D, kv.2 ≠ []) →
    (∀ kv ∈ D, ∀ e ∈ acc, e.1 ≠ kv.1) →
    List.Pairwise (fun a b => a.1 ≠ b.1) D →
    List.foldl (fun d kv => groupInsert d kv.1 kv.2)
      acc (D.flatMap fun kv => kv.2.map fun v => (kv.1, v)) = acc ++ D := by
  intro D
  induction D with
  | nil =>
    intro acc _ _ _
    simp
  | cons kv D' ih =>
    intro acc hvals hdisj hpw
    obtain ⟨k, vs⟩ := kv
    rcases vs with _ | ⟨v, vs'⟩
    · exact absurd rfl (hvals (k, []) (List.mem_cons_self _ _))
    rw [List.flatMap_cons, List.foldl_append, List.map_cons, List.foldl_cons]
    show List.foldl _ (List.foldl _ (groupInsert acc k v) _) _ = _
    rw [groupInsert_new acc k v fun e he => hdisj (k, v :: vs') (List.mem_cons_self _ _) e he]
    rw [foldl_groupInsert_vals k vs' acc [v]
      fun e he => hdisj (k, v :: vs') (List.mem_cons_self _ _) e he]
    rw [List.singleton_append]
    rw [ih (acc ++ [(k, v :: vs')])
      (fun kv hkv => hvals kv (List.mem_cons_of_mem _ hkv))
      (fun kv hkv e he => by
        rcases List.mem_append.mp he with he | he
        · exact hdisj kv (List.mem_cons_of_mem _ hkv) e he
        · rcases List.mem_singleton.mp he with rfl
          exact (List.pairwise_cons.mp hpw).1 kv hkv)
      (List.pairwise_cons.mp hpw).2]
    rw [List.append_assoc, List.singleton_append]

theorem parse_qs_urlencodeSeq (D : List (Chars × List Chars))
    (hne : D ≠ [])
    (hvals : ∀ kv ∈ D, kv.2 ≠ [])
    (hvne : ∀ kv ∈ D, ∀ v ∈ kv.2, v ≠ [])
    (hpw : List.Pairwise (fun a b => a.1 ≠ b.1) D) :
    parse_qs (urlencodeSeq D) = D := by
  have hflat : ((D.flatMap fun kv => kv.2.map fun v => (kv.1, v)).map
        fun p => quotePlus p.1 ++ '=' :: quotePlus p.2)
      = D.flatMap fun kv => kv.2.map fun v => quotePlus kv.1 ++ '=' :: quotePlus v := by
    rw [List.map_flatMap]
    congr 1
    funext kv
    rw [List.map_map]
    rfl
  have hfne : (D.flatMap fun kv => kv.2.map fun v => (kv.1, v)) ≠ [] := by
    rcases D with _ | ⟨kv, D'⟩
    · exact absurd rfl hne
    · rcases hv : kv.2 with _ | ⟨v, vs⟩
      · exact absurd hv (hvals kv (List.mem_cons_self _ _))
      · simp [hv]
  have hmem : ∀ p ∈ (D.flatMap fun kv => kv.2.map fun v => (kv.1, v)), p.2 ≠ [] := by
    intro p hp
    rw [List.mem_flatMap] at hp
    obtain ⟨kv, hkv, hp⟩ := hp
    rw [List.mem_map] at hp
    obtain ⟨v, hv, rfl⟩ := hp
    exact hvne kv hkv v hv
  have hps : parseQsl (urlencodeSeq D) = D.flatMap fun kv => kv.2.map fun v => (kv.1, v) := by
    rw [urlencodeSeq, ← hflat]
    exact parseQsl_fields _ hfne hmem
  rw [parse_qs, hps]
  have h0 := foldl_groupInsert_flatten D [] hvals
    (fun kv _ e he => absurd he (List.not_mem_nil e)) hpw
  rw [List.nil_append] at h0
  exact h0

theorem qslStep_mem (f : Chars) (acc : List (Chars × Chars)) (p : Chars × Chars)
    (hp : p ∈ qslStep f acc) :
    p ∈ acc ∨ ∃ n v, v ≠ [] ∧ p = (unquotePlus n, unquotePlus v) := by
  rw [qslStep] at hp
  by_cases hf : f = []
  · rw [if_pos hf] at hp
    exact Or.inl hp
  · rw [if_neg hf] at hp
    rcases hsp : splitOnce ['='] f with _ | ⟨n, v⟩ <;> rw [hsp] at hp
    · exact Or.inl hp
    · have hp2 : p ∈ (if v = [] then acc else (unquotePlus n, unquotePlus v) :: acc) := hp
      by_cases hv : v = []
      · rw [if_pos hv] at hp2
        exact Or.inl hp2
      · rw [if_neg hv] at hp2
        rcases List.mem_cons.mp hp2 with he | hm
        · exact Or.inr ⟨n, v, hv, he⟩
        · exact Or.inl hm

theorem parseQsl_mem (qs : Chars) (p : Chars × Chars) (hp : p ∈ parseQsl qs) :
    ∃ n v, v ≠ [] ∧ p = (unquotePlus n, unquotePlus v) := by
  rw [parseQsl] at hp
  generalize pySplitChar '&' qs = fs at hp
  induction fs with
  | nil => cases hp
  | cons f fs ih =>
    rw [List.foldr_cons] at hp
    rcases qslStep_mem f _ p hp with hm | he
    · exact ih hm
    · exact he

theorem parseQsl_snd_ne_nil (qs : Chars) : ∀ p ∈ parseQsl qs, p.2 ≠ [] := by
  intro p hp
  obtain ⟨n, v, hv, rfl⟩ := parseQsl_mem qs p hp
  exact unquotePlus_ne_nil v hv

theorem groupInsert_vals (P : Chars → Prop) (k : Chars) (v : Chars) :
    ∀ (d : List (Chars × List Chars)),
    (∀ e ∈ d, e.2 ≠ [] ∧ ∀ x ∈ e.2, P x) → P v →
    ∀ e ∈ groupInsert d k v, e.2 ≠ [] ∧ ∀ x ∈ e.2, P x := by
  intro d
  induction d with
  | nil =>
    intro _ hv e he
    rw [groupInsert] at he
    rcases List.mem_singleton.mp he with rfl
    refine ⟨by simp, ?_⟩
    intro x hx
    rcases List.mem_singleton.mp hx with rfl
    exact hv
  | cons e0 d' ih =>
    intro hd hv e he
    obtain ⟨k0, vs0⟩ := e0
    rw [groupInsert] at he
    by_cases hk : k0 = k
    · rw [if_pos hk] at he
      rcases List.mem_cons.mp he with rfl | hm
      · refine ⟨by simp, ?_⟩
        intro x hx
        rcases List.mem_append.mp hx with hx | hx
        · exact (hd (k0, vs0) (List.mem_cons_self _ _)).2 x hx
        · rcases List.mem_singleton.mp hx with rfl
          exact hv
      · exact hd e (List.mem_cons_of_mem _ hm)
    · rw [if_neg hk] at he
      rcases List.mem_cons.mp he with rfl | hm
      · exact hd (k0, vs0) (List.mem_cons_self _ _)
      · exact ih (fun e he => hd e (List.mem_cons_of_mem _ he)) hv e hm

theorem groupInsert_fst (k : Chars) (v : Chars) : ∀ (d : List (Chars × List Chars)),
    (groupInsert d k v).map Prod.fst
      = if k ∈ d.map Prod.fst then d.map Prod.fst else d.map Prod.fst ++ [k] := by
  intro d
  induction d with
  | nil => simp [groupInsert]
  | cons e0 d' ih =>
    obtain ⟨k0, vs0⟩ := e0
    rw [groupInsert]
    by_cases hk : k0 = k
    · rw [if_pos hk, List.map_cons, List.map_cons]
      rw [if_pos (by rw [List.mem_cons]; exact Or.inl hk.symm)]
    · rw [if_neg hk, List.map_cons, List.map_cons, ih]
      by_cases hmem : k ∈ d'.map Prod.fst
      · rw [if_pos hmem, if_pos (List.mem_cons_of_mem _ hmem)]
      · rw [if_neg hmem, if_neg (by
          rw [List.mem_cons]
          rintro (h | h)
          · exact hk h.symm
          · exact hmem h), List.cons_append]

theorem groupInsert_keys_nodup (k : Chars) (v : Chars) (d : List (Chars × List Chars))
    (h : (d.map Prod.fst).Nodup) : ((groupInsert d k v).map Prod.fst).Nodup := by
  rw [groupInsert_fst]
  by_cases hmem : k ∈ d.map Prod.fst
  · rw [if_pos hmem]
    exact h
  · rw [if_neg hmem]
    simp [List.nodup_append, h, hmem]

theorem foldl_gi_keys_nodup : ∀ (ps : List (Chars × Chars)) (d : List (Chars × List Chars)),
    (d.map Prod.fst).Nodup →
    ((List.foldl (fun d kv => groupInsert d kv.1 kv.2) d ps).map Prod.fst).Nodup := by
  intro ps
  induction ps with
  | nil =>
    intro d h
    exact h
  | cons kv ps' ih =>
    intro d h
    rw [List.foldl_cons]
    exact ih _ (groupInsert_keys_nodup kv.1 kv.2 d h)

theorem foldl_gi_vals (P : Chars → Prop) : ∀ (ps : List (Chars × Chars))
    (d : List (Chars × List Chars)),
    (∀ e ∈ d, e.2 ≠ [] ∧ ∀ x ∈ e.2, P x) → (∀ kv ∈ ps, P kv.2) →
    ∀ e ∈ List.foldl (fun d kv => groupInsert d kv.1 kv.2) d ps,
      e.2 ≠ [] ∧ ∀ x ∈ e.2, P x := by
  intro ps
  induction ps with
  | nil =>
    intro d hd _ e he
    exact hd e he
  | cons kv ps' ih =>
    intro d hd hps e he
    rw [List.foldl_cons] at he
    exact ih _ (groupInsert_vals P kv.1 kv.2 d hd (hps kv (List.mem_cons_self _ _)))
      (fun q hq => hps q (List.mem_cons_of_mem _ hq)) e he

theorem parse_qs_keys_nodup (qs : Chars) : ((parse_qs qs).map Prod.fst).Nodup := by
  rw [parse_qs]
  exact foldl_gi_keys_nodup (parseQsl qs) [] (by simp)

theorem parse_qs_vals (qs : Chars) :
    ∀ e ∈ parse_qs qs, e.2 ≠ [] ∧ ∀ x ∈ e.2, x ≠ [] := by
  rw [parse_qs]
  exact foldl_gi_vals (fun x => x ≠ []) (parseQsl qs) [] (by simp)
    (fun kv hkv => parseQsl_snd_ne_nil qs kv hkv)

/-! ## Reparsing an assembled URL (C2) -/

theorem noWS_append (a b : Chars) (ha : noWS a) (hb : noWS b) : noWS (a ++ b) := by
  intro c hc
  rcases List.mem_append.mp hc with hc | hc
  · exact ha c hc
  · exact hb c hc

theorem noWS_cons (c : Char) (t : Chars) (hc : ¬ pyIsSpace c) (ht : noWS t) :
    noWS (c :: t) := by
  intro d hd
  rcases List.mem_cons.mp hd with rfl | hd
  · exact hc
  · exact ht d hd

theorem takeWhile_append_all (p : Char → Bool) (a b : Chars) (h : ∀ x ∈ a, p x = true) :
    (a ++ b).takeWhile p = a ++ b.takeWhile p := by
  induction a with
  | nil => rfl
  | cons c t ih =>
    rw [List.cons_append, List.takeWhile_cons, if_pos (h c (List.mem_cons_self _ _)),
      ih fun x hx => h x (List.mem_cons_of_mem _ hx), List.cons_append]

theorem dropWhile_append_all (p : Char → Bool) (a b : Chars) (h : ∀ x ∈ a, p x = true) :
    (a ++ b).dropWhile p = b.dropWhile p := by
  induction a with
  | nil => rfl
  | cons c t ih =>
    rw [List.cons_append, List.dropWhile_cons, if_pos (h c (List.mem_cons_self _ _)),
      ih fun x hx => h x (List.mem_cons_of_mem _ hx)]

theorem takeWhile_append_stop (p : Char → Bool) (a : Chars) (c : Char) (t : Chars)
    (ha : ∀ x ∈ a, p x = true) (hc : p c = false) :
    (a ++ c :: t).takeWhile p = a := by
  induction a with
  | nil =>
    rw [List.nil_append, List.takeWhile_cons, if_neg (by simp [hc])]
  | cons d a' ih =>
    rw [List.cons_append, List.takeWhile_cons, if_pos (ha d (List.mem_cons_self _ _)),
      ih fun x hx => ha x (List.mem_cons_of_mem _ hx)]

theorem takeWhile_append_of_exists (p : Char → Bool) (a b : Chars)
    (h : ∃ x ∈ a, p x = false) : (a ++ b).takeWhile p = a.takeWhile p := by
  induction a with
  | nil =>
    obtain ⟨x, hx, _⟩ := h
    cases hx
  | cons c t ih =>
    by_cases hp : p c
    · rw [List.cons_append, List.takeWhile_cons, if_pos hp, List.takeWhile_cons, if_pos hp]
      have ht : ∃ x ∈ t, p x = false := by
        obtain ⟨x, hx, hpx⟩ := h
        rcases List.mem_cons.mp hx with rfl | hx
        · rw [hp] at hpx
          cases hpx
        · exact ⟨x, hx, hpx⟩
      rw [ih ht]
    · rw [List.cons_append, List.takeWhile_cons, if_neg hp, List.takeWhile_cons, if_neg hp]

theorem dropWhile_eq_self_of_takeWhile_nil (p : Char → Bool) (l : Chars)
    (h : l.takeWhile p = []) : l.dropWhile p = l := by
  cases l with
  | nil => rfl
  | cons c t =>
    rw [List.takeWhile_cons] at h
    by_cases hp : p c
    · rw [if_pos hp] at h
      cases h
    · rw [List.dropWhile_cons, if_neg hp]

theorem schemeOk_mem_schemeChar (S : Chars) (h : schemeOk S = true) :
    ∀ c ∈ S, schemeChar c = true := by
  rw [schemeOk, Bool.and_eq_true, Bool.and_eq_true] at h
  exact fun c hc => List.all_eq_true.mp h.2 c hc

theorem colon_not_mem_scheme (S : Chars) (h : schemeOk S = true) : ':' ∉ S := by
  intro hm
  have := schemeOk_mem_schemeChar S h ':' hm
  rw [schemeChar] at this
  simp at this

theorem splitScheme_scheme (S rest : Chars) (hok : schemeOk S = true)
    (hlow : asciiLower S = S) :
    splitScheme (S ++ ':' :: rest) = (S, rest) := by
  rw [splitScheme, splitOnce_single_found ':' S rest (colon_not_mem_scheme S hok)]
  show (if schemeOk S = true then (asciiLower S, rest) else ([], S ++ ':' :: rest)) = (S, rest)
  rw [if_pos hok, hlow]

theorem splitScheme_noColon (r : Chars) (h : ':' ∉ r) : splitScheme r = ([], r) := by
  rw [splitScheme, splitOnce_single_none ':' r h]

theorem splitScheme_badPre (r : Chars) (hmem : ':' ∈ r)
    (hbad : schemeOk (r.takeWhile (· ≠ ':')) = false) : splitScheme r = ([], r) := by
  rcases hsp : splitOnce [':'] r with _ | ⟨pre, post⟩
  · have hs := splitOnce_single_isSome ':' r hmem
    rw [hsp] at hs
    simp at hs
  · obtain ⟨hdecomp, hnotin⟩ := splitOnce_single_some ':' r pre post hsp
    have hpre : r.takeWhile (· ≠ ':') = pre := by
      rw [hdecomp]
      exact takeWhile_append_stop _ pre ':' post
        (fun x hx => by simp; exact fun he => hnotin (he ▸ hx)) (by simp)
    rw [splitScheme, hsp]
    show (if schemeOk pre = true then (asciiLower pre, post) else ([], r)) = ([], r)
    rw [if_neg (by rw [← hpre, hbad]; simp)]

theorem schemeOk_head_slash (t : Chars) (p : Char → Bool) :
    schemeOk (('/' :: t).takeWhile p) = false := by
  rw [List.takeWhile_cons]
  by_cases hp : p '/'
  · rw [if_pos hp, schemeOk]
    simp [Char.isAlpha]
  · rw [if_neg hp, schemeOk]
    simp

theorem splitNetloc_slashslash (N rest : Chars)
    (hN : ∀ c ∈ N, netlocStop c = false)
    (hrest : rest.takeWhile (fun c => !netlocStop c) = []) :
    splitNetloc ('/' :: '/' :: (N ++ rest)) = (N, rest) := by
  rw [splitNetloc,
    if_pos (show List.take 2 ('/' :: '/' :: (N ++ rest)) = ['/', '/'] from rfl)]
  show ((N ++ rest).takeWhile _, (N ++ rest).dropWhile _) = (N, rest)
  rw [takeWhile_append_all _ _ _ (fun c hc => by simp [hN c hc]),
    dropWhile_append_all _ _ _ (fun c hc => by simp [hN c hc]), hrest, List.append_nil,
    dropWhile_eq_self_of_takeWhile_nil _ _ hrest]

theorem splitNetloc_plain (r : Chars) (h : ¬ r.take 2 = ['/', '/']) :
    splitNetloc r = ([], r) := by
  rw [splitNetloc, if_neg h]

theorem splitFragment_noHash (l : Chars) (h : '#' ∉ l) : splitFragment l = (l, []) := by
  rw [splitFragment, splitOnce_single_none '#' l h]

theorem splitQuery_found (P Q : Chars) (h : '?' ∉ P) : splitQuery (P ++ '?' :: Q) = (P, Q) := by
  rw [splitQuery, splitOnce_single_found '?' P Q h]

theorem splitQuery_noQm (P : Chars) (h : '?' ∉ P) : splitQuery P = (P, []) := by
  rw [splitQuery, splitOnce_single_none '?' P h]

theorem urlsplitM_stages (url0 url1 S1 rest0 N1 rest1 PF F P1 Q1 : Chars)
    (hfil : url0.filter (fun c => !(c = '\t' || c = '\r' || c = '\n')) = url1)
    (hsch : splitScheme url1 = (S1, rest0))
    (hnet : splitNetloc rest0 = (N1, rest1))
    (hbr : ¬ (('[' ∈ N1 ∧ ']' ∉ N1) ∨ (']' ∈ N1 ∧ '[' ∉ N1)))
    (hfrag : splitFragment rest1 = (PF, F))
    (hq : splitQuery PF = (P1, Q1)) :
    urlsplitM url0 = some ⟨S1, N1, P1, Q1, F⟩ := by
  simp only [urlsplitM, hfil, hsch, hnet, hfrag, hq]
  rw [if_neg hbr]

theorem urlsplitM_assembled (S N P Q : Chars)
    (hS : S = [] ∨ schemeOk S = true)
    (hSlow : asciiLower S = S)
    (hSws : noWS S)
    (hNstop : ∀ c ∈ N, netlocStop c = false)
    (hNws : noWS N)
    (hNbr : ¬ (('[' ∈ N ∧ ']' ∉ N) ∨ (']' ∈ N ∧ '[' ∉ N)))
    (hPq : '?' ∉ P)
    (hPh : '#' ∉ P)
    (hPws : noWS P)
    (hPhead : N ≠ [] → P = [] ∨ P.head? = some '/')
    (hPlast : '/' ∉ P.reverse.take 1)
    (hPsch : S = [] → N = [] → ':' ∈ P → schemeOk (P.takeWhile (· ≠ ':')) = false)
    (hQcs : ∀ c ∈ Q, 37 ≤ c.toNat ∧ c.toNat ≤ 126 ∧ c.toNat ≠ 58 ∧ c.toNat ≠ 63 ∧
      c.toNat ≠ 35 ∧ c.toNat ≠ 59 ∧ c.toNat ≠ 47) :
    urlsplitM (urlunparse S N P [] Q []) = some ⟨S, N, P, Q, []⟩ := by
  have hQws : noWS Q := by
    intro c hc hsp
    have h1 := (hQcs c hc).1
    have h2 := (pyIsSpace_toNat c).mp hsp
    omega
  have hQhash : '#' ∉ Q := fun hm => (hQcs '#' hm).2.2.2.2.1 (by decide)
  have hQcolon : ':' ∉ Q := fun hm => (hQcs ':' hm).2.2.1 (by decide)
  have hQqm : '?' ∉ Q := fun hm => (hQcs '?' hm).2.2.2.1 (by decide)
  set tailQ : Chars := (if Q = [] then [] else '?' :: Q) with htq
  have htailHash : '#' ∉ tailQ := by
    rw [htq]
    by_cases hQn : Q = []
    · rw [if_pos hQn]
      exact List.not_mem_nil _
    · rw [if_neg hQn]
      intro hm
      rcases List.mem_cons.mp hm with h | h
      · exact absurd h (by decide)
      · exact hQhash h
  have htailColon : ':' ∉ tailQ := by
    rw [htq]
    by_cases hQn : Q = []
    · rw [if_pos hQn]
      exact List.not_mem_nil _
    · rw [if_neg hQn]
      intro hm
      rcases List.mem_cons.mp hm with h | h
      · exact absurd h (by decide)
      · exact hQcolon h
  have htailWs : noWS tailQ := by
    rw [htq]
    by_cases hQn : Q = []
    · rw [if_pos hQn]
      intro c hc
      cases hc
    · rw [if_neg hQn]
      exact noWS_cons '?' Q (by decide) hQws
  have htailStop : tailQ.takeWhile (fun c => !netlocStop c) = [] := by
    rw [htq]
    by_cases hQn : Q = []
    · rw [if_pos hQn]
      rfl
    · rw [if_neg hQn, List.takeWhile_cons, if_neg (by decide)]
  have hsplitQ : splitQuery (P ++ tailQ) = (P, Q) := by
    rw [htq]
    by_cases hQn : Q = []
    · rw [if_pos hQn, List.append_nil, splitQuery_noQm P hPq, hQn]
    · rw [if_neg hQn]
      exact splitQuery_found P Q hPq
  have hfragPT : splitFragment (P ++ tailQ) = (P ++ tailQ, []) :=
    splitFragment_noHash _ (by
      intro hm
      rcases List.mem_append.mp hm with h | h
      · exact hPh h
      · exact htailHash h)
  have hPTws : noWS (P ++ tailQ) := noWS_append _ _ hPws htailWs
  by_cases hA : N ≠ [] ∨ (P ≠ [] ∧ P.take 2 = ['/', '/'])
  · have hPheadA : P = [] ∨ P.head? = some '/' := by
      rcases hA with hA | ⟨hPne, hP2⟩
      · exact hPhead hA
      · right
        rcases P with _ | ⟨c, t⟩
        · exact absurd rfl hPne
        · rw [show List.take 2 (c :: t) = c :: List.take 1 t from rfl] at hP2
          injection hP2 with h1 _
          rw [h1]
          rfl
    have hstop : (P ++ tailQ).takeWhile (fun c => !netlocStop c) = [] := by
      rcases hPheadA with h | h
      · rw [h, List.nil_append]
        exact htailStop
      · rcases P with _ | ⟨c, t⟩
        · cases h
        · have hc : c = '/' := by
            rw [show (c :: t).head? = some c from rfl] at h
            injection h
          subst hc
          rw [List.cons_append, List.takeWhile_cons, if_neg (by decide)]
    have hins : (if P ≠ [] ∧ P.head? ≠ some '/' then '/' :: P else P) = P := by
      rcases hPheadA with h | h
      · rw [if_neg (fun hcon => hcon.1 h)]
      · rw [if_neg (fun hcon => hcon.2 h)]
    have hnetA : splitNetloc ('/' :: '/' :: (N ++ (P ++ tailQ))) = (N, P ++ tailQ) :=
      splitNetloc_slashslash N (P ++ tailQ) hNstop hstop
    by_cases hSn : S = []
    · subst hSn
      have hv : urlunparse [] N P [] Q [] = '/' :: '/' :: (N ++ (P ++ tailQ)) := by
        by_cases hQn : Q = [] <;> simp [urlunparse, urlunsplit, hA, hins, htq, hQn]
      have hschA : splitScheme ('/' :: '/' :: (N ++ (P ++ tailQ)))
          = ([], '/' :: '/' :: (N ++ (P ++ tailQ))) := by
        by_cases hc : ':' ∈ '/' :: '/' :: (N ++ (P ++ tailQ))
        · exact splitScheme_badPre _ hc (schemeOk_head_slash _ _)
        · exact splitScheme_noColon _ hc
      exact urlsplitM_stages _ _ [] _ N (P ++ tailQ) (P ++ tailQ) [] P Q
        (by
          rw [hv]
          exact filter_unsafe_eq_self _ (noWS_cons _ _ (by decide)
            (noWS_cons _ _ (by decide) (noWS_append _ _ hNws hPTws))))
        hschA hnetA hNbr hfragPT hsplitQ
    · have hok : schemeOk S = true := hS.resolve_left hSn
      have hv : urlunparse S N P [] Q []
          = S ++ ':' :: ('/' :: '/' :: (N ++ (P ++ tailQ))) := by
        by_cases hQn : Q = [] <;> simp [urlunparse, urlunsplit, hA, hins, htq, hQn, hSn]
      exact urlsplitM_stages _ _ S _ N (P ++ tailQ) (P ++ tailQ) [] P Q
        (by
          rw [hv]
          exact filter_unsafe_eq_self _ (noWS_append _ _ hSws (noWS_cons _ _ (by decide)
            (noWS_cons _ _ (by decide) (noWS_cons _ _ (by decide)
              (noWS_append _ _ hNws hPTws))))))
        (splitScheme_scheme S _ hok hSlow) hnetA hNbr hfragPT hsplitQ
  · rw [not_or] at hA
    have hNn : N = [] := not_ne_iff.mp hA.1
    subst hNn
    have htake2 : ¬ (P ++ tailQ).take 2 = ['/', '/'] := by
      rcases P with _ | ⟨c, t⟩
      · rw [List.nil_append, htq]
        by_cases hQn : Q = []
        · rw [if_pos hQn]
          simp
        · rw [if_neg hQn]
          intro h
          rw [show List.take 2 ('?' :: Q) = '?' :: List.take 1 Q from rfl] at h
          injection h with h1 _
          exact absurd h1 (by decide)
      · rcases t with _ | ⟨c2, t2⟩
        · have hc : c ≠ '/' := by
            intro hc
            subst hc
            exact hPlast (by decide)
          intro h
          rw [show ([c] ++ tailQ).take 2 = c :: tailQ.take 1 from rfl] at h
          injection h with h1 _
          exact hc h1
        · intro h
          rw [show ((c :: c2 :: t2) ++ tailQ).take 2 = [c, c2] from rfl] at h
          exact hA.2 ⟨List.cons_ne_nil _ _,
            by rw [show List.take 2 (c :: c2 :: t2) = [c, c2] from rfl]; exact h⟩
    have hnetB : splitNetloc (P ++ tailQ) = ([], P ++ tailQ) := splitNetloc_plain _ htake2
    by_cases hSn : S = []
    · subst hSn
      have hv : urlunparse [] [] P [] Q [] = P ++ tailQ := by
        by_cases hQn : Q = [] <;> simp [urlunparse, urlunsplit, hA.1, hA.2, htq, hQn]
      have hschB : splitScheme (P ++ tailQ) = ([], P ++ tailQ) := by
        by_cases hc : ':' ∈ P
        · refine splitScheme_badPre _ (List.mem_append.mpr (Or.inl hc)) ?_
          rw [takeWhile_append_of_exists _ _ _ ⟨':', hc, by simp⟩]
          exact hPsch rfl rfl hc
        · refine splitScheme_noColon _ ?_
          intro hm
          rcases List.mem_append.mp hm with h | h
          · exact hc h
          · exact htailColon h
      exact urlsplitM_stages _ _ [] _ [] (P ++ tailQ) (P ++ tailQ) [] P Q
        (by rw [hv]; exact filter_unsafe_eq_self _ hPTws) hschB hnetB (by simp)
        hfragPT hsplitQ
    · have hok : schemeOk S = true := hS.resolve_left hSn
      have hv : urlunparse S [] P [] Q [] = S ++ ':' :: (P ++ tailQ) := by
        by_cases hQn : Q = [] <;> simp [urlunparse, urlunsplit, hA.1, hA.2, htq, hQn, hSn]
      exact urlsplitM_stages _ _ S _ [] (P ++ tailQ) (P ++ tailQ) [] P Q
        (by
          rw [hv]
          exact filter_unsafe_eq_self _ (noWS_append _ _ hSws
            (noWS_cons _ _ (by decide) hPTws)))
        (splitScheme_scheme S _ hok hSlow) hnetB (by simp) hfragPT hsplitQ

theorem netlocStop_eq (c : Char) (h : netlocStop c = true) : c = '/' ∨ c = '?' ∨ c = '#' := by
  rw [netlocStop] at h
  simp only [Bool.or_eq_true, decide_eq_true_eq] at h
  tauto

theorem splitScheme_char (l S0 R0 : Chars) (h : splitScheme l = (S0, R0)) :
    (S0 = [] ∧ R0 = l ∧
      (':' ∉ l ∨ schemeOk (l.takeWhile (· ≠ ':')) = false)) ∨
    (∃ pre, schemeOk pre = true ∧ S0 = asciiLower pre ∧ l = pre ++ ':' :: R0) := by
  rw [splitScheme] at h
  rcases hsp : splitOnce [':'] l with _ | ⟨pre, post⟩ <;> rw [hsp] at h
  · left
    have hinj : ([] : Chars) = S0 ∧ l = R0 := Prod.mk.injEq .. ▸ h
    obtain ⟨h1, h2⟩ := hinj
    refine ⟨h1.symm, h2.symm, Or.inl ?_⟩
    intro hm
    have hs := splitOnce_single_isSome ':' l hm
    rw [hsp] at hs
    simp at hs
  · obtain ⟨hdec, hnin⟩ := splitOnce_single_some ':' l pre post hsp
    have h3 : (if schemeOk pre = true then (asciiLower pre, post) else ([], l)) = (S0, R0) := h
    by_cases hok : schemeOk pre = true
    · rw [if_pos hok] at h3
      have hinj : asciiLower pre = S0 ∧ post = R0 := Prod.mk.injEq .. ▸ h3
      exact Or.inr ⟨pre, hok, hinj.1.symm, by rw [hdec, hinj.2]⟩
    · rw [if_neg hok] at h3
      have hinj : ([] : Chars) = S0 ∧ l = R0 := Prod.mk.injEq .. ▸ h3
      left
      refine ⟨hinj.1.symm, hinj.2.symm, Or.inr ?_⟩
      have hpre : l.takeWhile (· ≠ ':') = pre := by
        rw [hdec]
        exact takeWhile_append_stop _ pre ':' post
          (fun x hx => by simp; exact fun he => hnin (he ▸ hx)) (by simp)
      rw [hpre]
      exact Bool.not_eq_true _ ▸ (by simpa using hok)

theorem splitNetloc_char (r N0 R1 : Chars) (h : splitNetloc r = (N0, R1)) :
    (N0 = [] ∧ R1 = r) ∨
    (∃ t, r = '/' :: '/' :: t ∧ N0 = t.takeWhile (fun c => !netlocStop c) ∧
      R1 = t.dropWhile (fun c => !netlocStop c)) := by
  rw [splitNetloc] at h
  split_ifs at h with h2
  · right
    have hinj : (r.drop 2).takeWhile (fun c => !netlocStop c) = N0 ∧
        (r.drop 2).dropWhile (fun c => !netlocStop c) = R1 := Prod.mk.injEq .. ▸ h
    refine ⟨r.drop 2, ?_, hinj.1.symm, hinj.2.symm⟩
    conv_lhs => rw [← List.take_append_drop 2 r]
    rw [h2]
    rfl
  · have hinj : ([] : Chars) = N0 ∧ r = R1 := Prod.mk.injEq .. ▸ h
    exact Or.inl ⟨hinj.1.symm, hinj.2.symm⟩

theorem splitFragment_char (l PF F0 : Chars) (h : splitFragment l = (PF, F0)) :
    '#' ∉ PF ∧ ∃ t, l = PF ++ t := by
  rw [splitFragment] at h
  rcases hsp : splitOnce ['#'] l with _ | ⟨pre, post⟩ <;> rw [hsp] at h
  · have hinj : l = PF ∧ ([] : Chars) = F0 := Prod.mk.injEq .. ▸ h
    refine ⟨?_, [], by rw [← hinj.1, List.append_nil]⟩
    intro hm
    have hs := splitOnce_single_isSome '#' l (hinj.1 ▸ hm)
    rw [hsp] at hs
    simp at hs
  · obtain ⟨hdec, hnin⟩ := splitOnce_single_some '#' l pre post hsp
    have hinj : pre = PF ∧ post = F0 := Prod.mk.injEq .. ▸ h
    exact ⟨hinj.1 ▸ hnin, '#' :: post, by rw [hdec, hinj.1]⟩

theorem splitQuery_char (l P0 Q0 : Chars) (h : splitQuery l = (P0, Q0)) :
    '?' ∉ P0 ∧ ∃ t, l = P0 ++ t := by
  rw [splitQuery] at h
  rcases hsp : splitOnce ['?'] l with _ | ⟨pre, post⟩ <;> rw [hsp] at h
  · have hinj : l = P0 ∧ ([] : Chars) = Q0 := Prod.mk.injEq .. ▸ h
    refine ⟨?_, [], by rw [← hinj.1, List.append_nil]⟩
    intro hm
    have hs := splitOnce_single_isSome '?' l (hinj.1 ▸ hm)
    rw [hsp] at hs
    simp at hs
  · obtain ⟨hdec, hnin⟩ := splitOnce_single_some '?' l pre post hsp
    have hinj : pre = P0 ∧ post = Q0 := Prod.mk.injEq .. ▸ h
    exact ⟨hinj.1 ▸ hnin, '?' :: post, by rw [hdec, hinj.1]⟩

theorem isAlpha_toNat (c : Char) : c.isAlpha = true ↔
    ((65 ≤ c.toNat ∧ c.toNat ≤ 90) ∨ (97 ≤ c.toNat ∧ c.toNat ≤ 122)) := by
  rw [Char.isAlpha, Char.isUpper, Char.isLower]
  simp only [Bool.or_eq_true, Bool.and_eq_true, decide_eq_true_eq, ge_iff_le]
  exact Iff.rfl

theorem isDigit_toNat (c : Char) : c.isDigit = true ↔ (48 ≤ c.toNat ∧ c.toNat ≤ 57) := by
  rw [Char.isDigit]
  simp only [Bool.and_eq_true, decide_eq_true_eq, ge_iff_le]
  exact Iff.rfl

theorem schemeChar_toNat (c : Char) : schemeChar c = true ↔
    ((65 ≤ c.toNat ∧ c.toNat ≤ 90) ∨ (97 ≤ c.toNat ∧ c.toNat ≤ 122) ∨
     (48 ≤ c.toNat ∧ c.toNat ≤ 57) ∨ c.toNat = 43 ∨ c.toNat = 45 ∨ c.toNat = 46) := by
  rw [schemeChar]
  simp only [Bool.or_eq_true, decide_eq_true_eq, isAlpha_toNat, isDigit_toNat, char_eq_iff]
  have h1 : ('+').toNat = 43 := rfl
  have h2 : ('-').toNat = 45 := rfl
  have h3 : ('.').toNat = 46 := rfl
  rw [h1, h2, h3]
  tauto

theorem isAlpha_lower (c : Char) (h : c.isAlpha = true) :
    (asciiLowerChar c).isAlpha = true := by
  rw [isAlpha_toNat] at h ⊢
  rw [lower_toNat]
  split_ifs with hc <;> omega

theorem schemeChar_lower (c : Char) (h : schemeChar c = true) :
    schemeChar (asciiLowerChar c) = true := by
  rw [schemeChar_toNat] at h ⊢
  rw [lower_toNat]
  split_ifs with hc <;> omega

theorem schemeOk_asciiLower (S : Chars) (h : schemeOk S = true) :
    schemeOk (asciiLower S) = true := by
  rw [schemeOk, Bool.and_eq_true, Bool.and_eq_true] at h ⊢
  obtain ⟨⟨h1, h2⟩, h3⟩ := h
  refine ⟨⟨?_, ?_⟩, ?_⟩
  · simp only [asciiLower, decide_eq_true_eq] at h1 ⊢
    simp [h1]
  · rw [asciiLower, List.head?_map]
    cases hh : S.head? with
    | none =>
      rw [hh] at h2
      simp at h2
    | some c =>
      rw [hh] at h2
      simp only [Option.map_some, Option.elim_some] at h2 ⊢
      exact isAlpha_lower c h2
  · rw [List.all_eq_true] at h3 ⊢
    intro x hx
    obtain ⟨c0, hc0, rfl⟩ := List.mem_map.mp hx
    exact schemeChar_lower c0 (h3 c0 hc0)

theorem netlocStop_toNat (c : Char) : netlocStop c = true ↔
    (c.toNat = 47 ∨ c.toNat = 63 ∨ c.toNat = 35) := by
  rw [netlocStop]
  simp only [Bool.or_eq_true, decide_eq_true_eq, char_eq_iff]
  have h1 : ('/').toNat = 47 := rfl
  have h2 : ('?').toNat = 63 := rfl
  have h3 : ('#').toNat = 35 := rfl
  rw [h1, h2, h3]
  tauto

theorem netlocStop_lower (c : Char) (h : netlocStop c = false) :
    netlocStop (asciiLowerChar c) = false := by
  rw [← Bool.not_eq_true, netlocStop_toNat] at h ⊢
  rw [lower_toNat]
  split_ifs with hc <;> omega

theorem asciiLower_eq_nil (l : Chars) : asciiLower l = [] ↔ l = [] := by
  simp [asciiLower]

theorem urlencodeSeq_charset (D : List (Chars × List Chars)) : ∀ c ∈ urlencodeSeq D,
    37 ≤ c.toNat ∧ c.toNat ≤ 126 ∧ c.toNat ≠ 58 ∧ c.toNat ≠ 63 ∧ c.toNat ≠ 35 ∧
    c.toNat ≠ 59 ∧ c.toNat ≠ 47 := by
  intro c hc
  rw [urlencodeSeq] at hc
  rcases joinChar_mem '&' _ c hc with rfl | ⟨f, hf, hcf⟩
  · refine ⟨by decide, by decide, by decide, by decide, by decide, by decide, by decide⟩
  · rw [List.mem_flatMap] at hf
    obtain ⟨kv, _, hf⟩ := hf
    rw [List.mem_map] at hf
    obtain ⟨v, _, rfl⟩ := hf
    rcases List.mem_append.mp hcf with h | h
    · have hq := quotePlus_charset kv.1 c h
      exact ⟨hq.1, hq.2.1, hq.2.2.1, hq.2.2.2.1, hq.2.2.2.2.1, hq.2.2.2.2.2.2.2.1,
        hq.2.2.2.2.2.2.2.2⟩
    · rcases List.mem_cons.mp h with rfl | h
      · refine ⟨by decide, by decide, by decide, by decide, by decide, by decide, by decide⟩
      · have hq := quotePlus_charset v c h
        exact ⟨hq.1, hq.2.1, hq.2.2.1, hq.2.2.2.1, hq.2.2.2.2.1, hq.2.2.2.2.2.2.2.1,
          hq.2.2.2.2.2.2.2.2⟩

theorem parse_qs_nil : parse_qs [] = [] := rfl

theorem urlsplitM_facts (u : Chars) (s : SplitResult)
    (hws : noWS u)
    (h : urlsplitM u = some s) :
    (s.scheme = [] ∨ schemeOk s.scheme = true) ∧
    asciiLower s.scheme = s.scheme ∧
    noWS s.scheme ∧
    (∀ c ∈ s.netloc, netlocStop c = false) ∧
    (∀ c ∈ s.netloc, c ∈ u) ∧
    ¬ (('[' ∈ s.netloc ∧ ']' ∉ s.netloc) ∨ (']' ∈ s.netloc ∧ '[' ∉ s.netloc)) ∧
    '?' ∉ s.path ∧ '#' ∉ s.path ∧ (∀ c ∈ s.path, c ∈ u) ∧
    (s.netloc ≠ [] → s.path = [] ∨ s.path.head? = some '/') ∧
    (s.scheme = [] → s.netloc = [] → ':' ∈ rstripSlash s.path →
      schemeOk ((rstripSlash s.path).takeWhile (· ≠ ':')) = false) := by
  have hfil : u.filter (fun c => !(c = '\t' || c = '\r' || c = '\n')) = u :=
    filter_unsafe_eq_self u hws
  rcases hsch : splitScheme u with ⟨S0, R0⟩
  rcases hnet : splitNetloc R0 with ⟨N0, R1⟩
  rcases hfrag : splitFragment R1 with ⟨PF, F0⟩
  rcases hq : splitQuery PF with ⟨P0, Q0⟩
  simp only [urlsplitM, hfil, hsch, hnet, hfrag, hq] at h
  by_cases hbr : ('[' ∈ N0 ∧ ']' ∉ N0) ∨ (']' ∈ N0 ∧ '[' ∉ N0)
  · rw [if_pos hbr] at h
    cases h
  rw [if_neg hbr] at h
  injection h with h2
  subst h2
  have hS := splitScheme_char u S0 R0 hsch
  have hN := splitNetloc_char R0 N0 R1 hnet
  have hF := splitFragment_char R1 PF F0 hfrag
  have hQ := splitQuery_char PF P0 Q0 hq
  have hR0sub : ∀ c ∈ R0, c ∈ u := by
    rcases hS with ⟨_, hR0, _⟩ | ⟨pre, _, _, hdec⟩
    · intro c hc
      rwa [hR0] at hc
    · intro c hc
      rw [hdec]
      exact List.mem_append.mpr (Or.inr (List.mem_cons_of_mem _ hc))
  have hR1sub : ∀ c ∈ R1, c ∈ R0 := by
    rcases hN with ⟨_, hR1⟩ | ⟨t, hr, _, hR1⟩
    · intro c hc
      rwa [hR1] at hc
    · intro c hc
      rw [hR1] at hc
      rw [hr]
      exact List.mem_cons_of_mem _ (List.mem_cons_of_mem _ (dropWhile_subset _ t c hc))
  have hPFsub : ∀ c ∈ PF, c ∈ R1 := by
    obtain ⟨t1, hPF⟩ := hF.2
    intro c hc
    rw [hPF]
    exact List.mem_append.mpr (Or.inl hc)
  have hP0sub : ∀ c ∈ P0, c ∈ PF := by
    obtain ⟨t2, hP0d⟩ := hQ.2
    intro c hc
    rw [hP0d]
    exact List.mem_append.mpr (Or.inl hc)
  have hPathU : ∀ c ∈ P0, c ∈ u := fun c hc => hR0sub _ (hR1sub _ (hPFsub _ (hP0sub _ hc)))
  have hschemeFacts : (S0 = [] ∨ schemeOk S0 = true) ∧ asciiLower S0 = S0 ∧ noWS S0 := by
    rcases hS with ⟨hS0, _, _⟩ | ⟨pre, hok, hS0eq, hdec⟩
    · refine ⟨Or.inl hS0, by rw [hS0]; rfl, by rw [hS0]; intro c hc; cases hc⟩
    · subst hS0eq
      refine ⟨Or.inr (schemeOk_asciiLower pre hok), lower_idem pre, noWS_asciiLower pre ?_⟩
      intro c hc
      exact hws c (by rw [hdec]; exact List.mem_append.mpr (Or.inl hc))
  have hNstop : ∀ c ∈ N0, netlocStop c = false := by
    rcases hN with ⟨hN0, _⟩ | ⟨t, _, hN0, _⟩
    · rw [hN0]
      intro c hc
      cases hc
    · rw [hN0]
      intro c hc
      have := List.mem_takeWhile_imp hc
      simpa using this
  have hNsub : ∀ c ∈ N0, c ∈ u := by
    rcases hN with ⟨hN0, _⟩ | ⟨t, hr, hN0, _⟩
    · rw [hN0]
      intro c hc
      cases hc
    · rw [hN0]
      intro c hc
      refine hR0sub c ?_
      rw [hr]
      exact List.mem_cons_of_mem _ (List.mem_cons_of_mem _ (takeWhile_subset _ t c hc))
  have hPh : '#' ∉ P0 := fun hm => hF.1 (hP0sub _ hm)
  have hPhead : N0 ≠ [] → P0 = [] ∨ P0.head? = some '/' := by
    intro hne
    rcases hN with ⟨hN0, _⟩ | ⟨t, hr, hN0, hR1⟩
    · exact absurd hN0 hne
    by_cases hP0 : P0 = []
    · exact Or.inl hP0
    right
    obtain ⟨t1, hPF⟩ := hF.2
    obtain ⟨t2, hP0d⟩ := hQ.2
    have hR1d : R1 = P0 ++ (t2 ++ t1) := by
      rw [hPF, hP0d, List.append_assoc]
    cases P0 with
    | nil => exact absurd rfl hP0
    | cons c tt =>
      have hhead : R1.head? = some c := by
        rw [hR1d]
        rfl
      have hd := List.head?_dropWhile_not (fun c => !netlocStop c) t
      rw [← hR1, hhead] at hd
      have hstop : netlocStop c = true := by simpa using hd
      rcases netlocStop_eq c hstop with rfl | rfl | rfl
      · rfl
      · exact absurd (List.mem_cons_self _ _) hQ.1
      · exact absurd (hP0sub '#' (List.mem_cons_self _ _)) hF.1
  have hPsch : S0 = [] → N0 = [] → ':' ∈ rstripSlash P0 →
      schemeOk ((rstripSlash P0).takeWhile (· ≠ ':')) = false := by
    intro hs0 hn0 hcol
    have hPne : rstripSlash P0 ≠ [] := by
      intro he
      rw [he] at hcol
      cases hcol
    rcases hS with ⟨_, hR0, hco⟩ | ⟨pre, hok, hS0eq, _⟩
    · rcases hN with ⟨_, hR1⟩ | ⟨t, hr, hN0eq, hR1⟩
      · obtain ⟨t1, hPF⟩ := hF.2
        obtain ⟨t2, hP0d⟩ := hQ.2
        obtain ⟨sl, _, hrs⟩ := rstripSlash_decomp P0
        have hu : u = rstripSlash P0 ++ (sl ++ (t2 ++ t1)) := by
          rw [← hR0, ← hR1, hPF, hP0d]
          conv_lhs => rw [hrs]
          simp [List.append_assoc]
        rcases hco with hco | hco
        · exfalso
          refine hco ?_
          rw [hu]
          exact List.mem_append.mpr (Or.inl hcol)
        · rw [hu] at hco
          rwa [takeWhile_append_of_exists _ _ _ ⟨':', hcol, by simp⟩] at hco
      · have hcolP : ':' ∈ P0 := rstripSlash_subset P0 ':' hcol
        obtain ⟨t1, hPF⟩ := hF.2
        obtain ⟨t2, hP0d⟩ := hQ.2
        have hR1d : R1 = P0 ++ (t2 ++ t1) := by
          rw [hPF, hP0d, List.append_assoc]
        cases P0 with
        | nil => cases hcolP
        | cons c tt =>
          have hhead : R1.head? = some c := by
            rw [hR1d]
            rfl
          have hd := List.head?_dropWhile_not (fun c => !netlocStop c) t
          rw [← hR1, hhead] at hd
          have hstop : netlocStop c = true := by simpa using hd
          have hcslash : c = '/' := by
            rcases netlocStop_eq c hstop with rfl | rfl | rfl
            · rfl
            · exact absurd (List.mem_cons_self _ _) hQ.1
            · exact absurd (hP0sub '#' (List.mem_cons_self _ _)) hF.1
          subst hcslash
          have hh := rstripSlash_head ('/' :: tt) hPne
          cases hrs2 : rstripSlash ('/' :: tt) with
          | nil => exact absurd hrs2 hPne
          | cons d w =>
            rw [hrs2] at hh
            have hd' : d = '/' := by
              rw [show ((d :: w).head? = some d) from rfl] at hh
              rw [show (('/' :: tt).head? = some '/') from rfl] at hh
              injection hh
            subst hd'
            exact schemeOk_head_slash w _
    · exfalso
      rw [hS0eq] at hs0
      have hpre0 : pre = [] := (asciiLower_eq_nil pre).mp hs0
      rw [hpre0] at hok
      exact absurd hok (by decide)
  exact ⟨hschemeFacts.1, hschemeFacts.2.1, hschemeFacts.2.2, hNstop, hNsub, hbr,
    hQ.1, hPh, hPathU, hPhead, hPsch⟩

theorem noWS_urlunsplit (s n u q f : Chars) (hs : noWS s) (hn : noWS n) (hu : noWS u)
    (hq : noWS q) (hf : noWS f) : noWS (urlunsplit s n u q f) := by
  simp only [urlunsplit]
  split_ifs <;> intro c hc hsp <;>
    (have h1 : c ∉ s := fun hm => hs c hm hsp
     have h2 : c ∉ n := fun hm => hn c hm hsp
     have h3 : c ∉ u := fun hm => hu c hm hsp
     have h4 : c ∉ q := fun hm => hq c hm hsp
     have h5 : c ∉ f := fun hm => hf c hm hsp
     have h6 : c ≠ '/' := fun he => by rw [he] at hsp; exact absurd hsp (by decide)
     have h7 : c ≠ ':' := fun he => by rw [he] at hsp; exact absurd hsp (by decide)
     have h8 : c ≠ '?' := fun he => by rw [he] at hsp; exact absurd hsp (by decide)
     have h9 : c ≠ '#' := fun he => by rw [he] at hsp; exact absurd hsp (by decide)
     simp [h1, h2, h3, h4, h5, h6, h7, h8, h9] at hc)

theorem noWS_urlunparse (S N P Q : Chars) (hS : noWS S) (hN : noWS N) (hP : noWS P)
    (hQ : noWS Q) : noWS (urlunparse S N P [] Q []) := by
  rw [urlunparse, if_neg (show ¬ (([] : Chars) ≠ []) from fun hx => hx rfl)]
  exact noWS_urlunsplit S N P Q [] hS hN hP hQ (fun c hc => absurd hc (List.not_mem_nil c))

/-- C2 (amended): `canonicalize_url` is idempotent on every URL that
contains no whitespace and no semicolon and that it accepts: if
`canonicalize_url u = some v` for such a `u`, then
`canonicalize_url v = some v`. -/
theorem canonicalize_url_idem_no_ws_no_semi (u v : String)
    (hws : noWS u.data) (hsemi : ';' ∉ u.data)
    (h : canonicalize_url u = some v) :
    canonicalize_url v = some v := by
  by_cases hnil : u.data = [] ∨ pyStrip u.data = []
  · rw [canonicalize_url, if_pos hnil] at h
    injection h with h
    subst h
    rw [canonicalize_url, if_pos hnil]
  · rw [canonicalize_url, if_neg hnil, pyStrip_eq_self u.data hws] at h
    rcases hsplit : urlsplitM u.data with _ | s
    · rw [urlparseM, hsplit] at h
      simp at h
    obtain ⟨hSfact, hSlow0, hSws0, hNstop0, hNsub0, hNbr0, hPq0, hPh0, hPsub0, hPhead0,
      hPsch0⟩ := urlsplitM_facts u.data s hws hsplit
    have hsemiP : ';' ∉ s.path := fun hm => hsemi (hPsub0 ';' hm)
    have hparse : urlparseM u.data
        = some ⟨s.scheme, s.netloc, s.path, [], s.query, s.fragment⟩ := by
      simp only [urlparseM, hsplit]
      rw [if_neg hsemiP]
    rw [hparse] at h
    have h2 : some (String.mk (urlunparse (asciiLower s.scheme) (asciiLower s.netloc)
        (rstripSlash s.path) []
        (if ((parse_qs s.query).filter fun kv => ¬ isTracking kv.1) ≠ []
         then urlencodeSeq ((parse_qs s.query).filter fun kv => ¬ isTracking kv.1)
         else []) [])) = some v := h
    injection h2 with h3
    obtain ⟨F, hF⟩ : ∃ F, F = (parse_qs s.query).filter fun kv => ¬ isTracking kv.1 :=
      ⟨_, rfl⟩
    obtain ⟨Qc, hQc⟩ : ∃ Qc, Qc = if F ≠ [] then urlencodeSeq F else [] := ⟨_, rfl⟩
    have hv : v.data = urlunparse (asciiLower s.scheme) (asciiLower s.netloc)
        (rstripSlash s.path) [] Qc [] := by
      rw [hQc, hF, ← h3]
    have hS : asciiLower s.scheme = [] ∨ schemeOk (asciiLower s.scheme) = true := by
      rcases hSfact with h0 | h0
      · left
        rw [h0]
        rfl
      · exact Or.inr (schemeOk_asciiLower _ h0)
    have hSlow : asciiLower (asciiLower s.scheme) = asciiLower s.scheme := lower_idem _
    have hSws : noWS (asciiLower s.scheme) := noWS_asciiLower _ hSws0
    have hNstop : ∀ c ∈ asciiLower s.netloc, netlocStop c = false := by
      intro c hc
      obtain ⟨c0, hc0, rfl⟩ := List.mem_map.mp hc
      exact netlocStop_lower c0 (hNstop0 c0 hc0)
    have hNws : noWS (asciiLower s.netloc) :=
      noWS_asciiLower _ (fun c hc => hws c (hNsub0 c hc))
    have hNbr : ¬ (('[' ∈ asciiLower s.netloc ∧ ']' ∉ asciiLower s.netloc) ∨
        (']' ∈ asciiLower s.netloc ∧ '[' ∉ asciiLower s.netloc)) := by
      rw [mem_asciiLower_special s.netloc '[' (by decide),
        mem_asciiLower_special s.netloc ']' (by decide)]
      exact hNbr0
    have hPq : '?' ∉ rstripSlash s.path := fun hm => hPq0 (rstripSlash_subset _ '?' hm)
    have hPh : '#' ∉ rstripSlash s.path := fun hm => hPh0 (rstripSlash_subset _ '#' hm)
    have hPws : noWS (rstripSlash s.path) :=
      fun c hc => hws c (hPsub0 c (rstripSlash_subset _ c hc))
    have hPhead : asciiLower s.netloc ≠ [] →
        rstripSlash s.path = [] ∨ (rstripSlash s.path).head? = some '/' := by
      intro hne
      have hne0 : s.netloc ≠ [] := by
        intro he
        refine hne ?_
        rw [he]
        rfl
      rcases hPhead0 hne0 with h0 | h0
      · left
        rw [h0]
        rfl
      · by_cases hrs : rstripSlash s.path = []
        · exact Or.inl hrs
        · right
          rw [rstripSlash_head _ hrs, h0]
    have hPsch : asciiLower s.scheme = [] → asciiLower s.netloc = [] →
        ':' ∈ rstripSlash s.path →
        schemeOk ((rstripSlash s.path).takeWhile (· ≠ ':')) = false := by
      intro hs0 hn0
      exact hPsch0 ((asciiLower_eq_nil _).mp hs0) ((asciiLower_eq_nil _).mp hn0)
    have hQcs : ∀ c ∈ Qc, 37 ≤ c.toNat ∧ c.toNat ≤ 126 ∧ c.toNat ≠ 58 ∧ c.toNat ≠ 63 ∧
        c.toNat ≠ 35 ∧ c.toNat ≠ 59 ∧ c.toNat ≠ 47 := by
      rw [hQc]
      by_cases hFn : F ≠ []
      · rw [if_pos hFn]
        exact urlencodeSeq_charset F
      · rw [if_neg hFn]
        intro c hc
        cases hc
    have hQws : noWS Qc := by
      intro c hc hsp
      have h1 := (hQcs c hc).1
      have h2 := (pyIsSpace_toNat c).mp hsp
      omega
    have hsplit2 : urlsplitM v.data = some ⟨asciiLower s.scheme, asciiLower s.netloc,
        rstripSlash s.path, Qc, []⟩ := by
      rw [hv]
      exact urlsplitM_assembled _ _ _ _ hS hSlow hSws hNstop hNws hNbr hPq hPh hPws
        hPhead (rstripSlash_last_ne s.path) hPsch hQcs
    have hvws : noWS v.data := by
      rw [hv]
      exact noWS_urlunparse _ _ _ _ hSws hNws hPws hQws
    by_cases hvnil : v.data = []
    · rw [canonicalize_url, if_pos (Or.inl hvnil)]
    · have hvstrip : pyStrip v.data = v.data := pyStrip_eq_self _ hvws
      rw [canonicalize_url, if_neg (by
        intro h0
        rcases h0 with h0 | h0
        · exact hvnil h0
        · rw [hvstrip] at h0
          exact hvnil h0), hvstrip]
      have hsemiV : ';' ∉ rstripSlash s.path :=
        fun hm => hsemiP (rstripSlash_subset _ ';' hm)
      have hparse2 : urlparseM v.data = some ⟨asciiLower s.scheme, asciiLower s.netloc,
          rstripSlash s.path, [], Qc, []⟩ := by
        simp only [urlparseM, hsplit2]
        rw [if_neg hsemiV]
      rw [hparse2]
      show some (String.mk (urlunparse (asciiLower (asciiLower s.scheme))
        (asciiLower (asciiLower s.netloc)) (rstripSlash (rstripSlash s.path)) []
        (if ((parse_qs Qc).filter fun kv => ¬ isTracking kv.1) ≠ []
         then urlencodeSeq ((parse_qs Qc).filter fun kv => ¬ isTracking kv.1)
         else []) [])) = some v
      have hQ2 : (if ((parse_qs Qc).filter fun kv => ¬ isTracking kv.1) ≠ []
          then urlencodeSeq ((parse_qs Qc).filter fun kv => ¬ isTracking kv.1)
          else []) = Qc := by
        by_cases hFn : F = []
        · have hQnil : Qc = [] := by
            rw [hQc, if_neg (by simpa using hFn)]
          rw [hQnil, parse_qs_nil, List.filter_nil, if_neg (by simp)]
        · have hQc' : Qc = urlencodeSeq F := by
            rw [hQc, if_pos hFn]
          have hvals : ∀ kv ∈ F, kv.2 ≠ [] := by
            intro kv hkv
            rw [hF] at hkv
            exact (parse_qs_vals s.query kv (List.mem_of_mem_filter hkv)).1
          have hvne : ∀ kv ∈ F, ∀ x ∈ kv.2, x ≠ [] := by
            intro kv hkv
            rw [hF] at hkv
            exact (parse_qs_vals s.query kv (List.mem_of_mem_filter hkv)).2
          have hpw : List.Pairwise (fun a b => a.1 ≠ b.1) F := by
            have hnd := parse_qs_keys_nodup s.query
            have hsub : List.Sublist (F.map Prod.fst)
                ((parse_qs s.query).map Prod.fst) := by
              rw [hF]
              exact List.Sublist.map _ (List.filter_sublist _)
            have hndF : (F.map Prod.fst).Nodup := List.Nodup.sublist hsub hnd
            exact List.pairwise_map.mp hndF
          have hpq : parse_qs Qc = F := by
            rw [hQc']
            exact parse_qs_urlencodeSeq F hFn hvals hvne hpw
          have hfilterF : F.filter (fun kv => ¬ isTracking kv.1) = F := by
            rw [List.filter_eq_self]
            intro a ha
            rw [hF] at ha
            exact (List.mem_filter.mp ha).2
          rw [hpq, hfilterF, if_pos hFn, ← hQc']
      rw [lower_idem, lower_idem, rstripSlash_idem, hQ2, ← hv]

theorem canonicalize_url_idem_witness :
    noWS "HTTP://Example.COM/jobs/123/?utm_source=x&page=2".data ∧
    ';' ∉ "HTTP://Example.COM/jobs/123/?utm_source=x&page=2".data ∧
    canonicalize_url "HTTP://Example.COM/jobs/123/?utm_source=x&page=2"
      = some "http://example.com/jobs/123?page=2" ∧
    canonicalize_url "http://example.com/jobs/123?page=2"
      = some "http://example.com/jobs/123?page=2" :=
  ⟨by unfold noWS; decide, by decide, by decide,
    canonicalize_url_idem_no_ws_no_semi
      "HTTP://Example.COM/jobs/123/?utm_source=x&page=2"
      "http://example.com/jobs/123?page=2" (by unfold noWS; decide) (by decide)
      (by decide)⟩
